import Mathlib

/-!
# NYC Subway Pathfinder

A verification development for the command-line front end in `main.cpp` (duration formatting and
the menu loop) and for the routing core it drives (route graph, stop registry, uniform-cost and
heuristic-guided search).
-/

namespace SubwayPathfinder

/-! ## Durations: `secondsToHMSFormat`

The parameter of `secondsToHMSFormat` is a `float`. Finite `float` values are rationals, and
every `float` operation is the exact operation followed by rounding to the nearest binary32
value, ties to even. Infinities, NaN and results beyond the range of `int` are outside this
model. -/

/-- The integer nearest to a rational, a tie going to the even neighbour. -/
def roundHalfEven (m : ℚ) : ℤ :=
  let f := ⌊m⌋
  let d := m - f
  if d < 1 / 2 then f
  else if 1 / 2 < d then f + 1
  else if f % 2 = 0 then f else f + 1

/-- The exponent of the unit in the last place of binary32 at `q`: 24 significant bits, and
never below the spacing of the subnormal numbers. -/
def ulpExp (q : ℚ) : ℤ := max (Int.log 2 |q| - 23) (-149)

/-- Rounding of an exact result to binary32, to nearest, ties to even. -/
def roundF32 (q : ℚ) : ℚ :=
  if q = 0 then 0 else (roundHalfEven (q / 2 ^ ulpExp q) : ℚ) * 2 ^ ulpExp q

/-- Conversion of a `float` to `int`: the fractional part is discarded. -/
def truncToInt (x : ℚ) : ℤ := if 0 ≤ x then ⌊x⌋ else ⌈x⌉

/-- The three locals `hours`, `minutes`, `secs` of `secondsToHMSFormat`, computed as in the
source: integer operands are converted to `float`, the arithmetic is done in `float`, and each
result is converted to `int`. -/
def secondsToHMS (seconds : ℚ) : ℤ × ℤ × ℤ :=
  let hours := truncToInt (roundF32 (seconds / roundF32 3600))
  let minutes :=
    truncToInt (roundF32 (roundF32 (seconds - roundF32 ((hours * 3600 : ℤ) : ℚ)) / roundF32 60))
  let secs := truncToInt (roundF32 (seconds - roundF32 ((hours * 3600 + minutes * 60 : ℤ) : ℚ)))
  (hours, minutes, secs)

/-- Output of an `int` under `setw(width)` and `setfill(fill)`: the decimal text, padded on the
left up to the width. -/
def putInt (width : Nat) (fill : Char) (n : ℤ) : String :=
  let digits := toString n
  String.mk (List.replicate (width - digits.length) fill) ++ digits

/-- The function `secondsToHMSFormat` of `main.cpp`. -/
def secondsToHMSFormat (seconds : ℚ) : String :=
  let (hours, minutes, secs) := secondsToHMS seconds
  putInt 2 '0' hours ++ " H " ++ ": " ++ putInt 2 '0' minutes ++ " M " ++ ": "
    ++ putInt 2 '0' secs ++ " S "

/-- The 19 characters "HH H : MM M : SS S " with each number written as two decimal digits. -/
def hmsText (h m s : ℕ) : String :=
  String.mk [Nat.digitChar (h / 10), Nat.digitChar (h % 10), ' ', 'H', ' ', ':', ' ',
    Nat.digitChar (m / 10), Nat.digitChar (m % 10), ' ', 'M', ' ', ':', ' ',
    Nat.digitChar (s / 10), Nat.digitChar (s % 10), ' ', 'S', ' ']

/-! ## The menu loop of `main` -/

/-- Standard input as `getline` sees it: the lines not yet read, whether the last of them ends in
a newline, and whether the stream is still good (no end-of-file or failure met so far). -/
structure Cin where
  lines : List String
  newlineAtEnd : Bool
  good : Bool
deriving DecidableEq, Repr

/-- The call `getline(cin, str)`. On a stream that is not good nothing is extracted and `str`
keeps its value. On a good stream `str` is erased and the next line extracted; when no line is
left the stream fails and `str` stays empty; reading a last line that has no newline meets
end-of-file, so the stream is not good afterwards. -/
def getline (cin : Cin) (str : String) : Cin × String :=
  if cin.good then
    match cin.lines with
    | [] => ({ cin with good := false }, "")
    | l :: rest => ({ cin with lines := rest, good := !rest.isEmpty || cin.newlineAtEnd }, l)
  else (cin, str)

/-- The member functions of `Transit` that `main` calls. Their bodies are in `Transit.cpp`;
`main` is embedded over any implementation of the types it declares for them:
`stopExists` yields a `bool`, each search a `tuple<string, float, chrono::microseconds>`
(path text, route time in seconds, run time in microseconds), `printRoutes` prints lines. -/
structure TransitOps where
  printRoutes : List String
  stopExists : String → Bool
  shortest_path_a_star : String → String → String × ℚ × ℤ
  shortest_path_dijkstra : String → String → String × ℚ × ℤ

/-- Which of the two searches a call went to. -/
inductive Algorithm where
  | aStar
  | dijkstra
deriving DecidableEq, Repr

/-- One search invocation made by the loop: the member function and its two arguments in order. -/
structure SearchCall where
  algorithm : Algorithm
  first : String
  second : String
deriving DecidableEq, Repr

/-- Control points of `main`: the two input loops, the two searches with their report, the exit
question, and the return. -/
inductive Pc where
  | askDestination
  | askLocation
  | search
  | askExit
  | halted
deriving DecidableEq, Repr

/-- The state of `main`: control point, standard input, the three string variables the loop
reads into, the lines written to `cout` so far, and the searches invoked so far. -/
structure Menu where
  pc : Pc
  cin : Cin
  stopA_name : String
  stopB_name : String
  exit : String
  cout : List String
  calls : List SearchCall

/-- The lines `main` prints after both searches returned (lines 106 to 116). -/
def report (a_star_calc dijkstrasCalc : String × ℚ × ℤ) : List String :=
  ["",
   "A* Fastest pathing: " ++ a_star_calc.1,
   "A* Estimated Route Time: " ++ secondsToHMSFormat a_star_calc.2.1,
   "A* Search Algorithm runtime: " ++ toString a_star_calc.2.2 ++ " microseconds",
   "",
   "Dijkstra's Fastest pathing: " ++ dijkstrasCalc.1,
   "Dijkstra's Estimated Route Time: " ++ secondsToHMSFormat dijkstrasCalc.2.1,
   "Dijkstra's Algorithm runtime: " ++ toString dijkstrasCalc.2.2 ++ " microseconds",
   ""]

/-- One pass through a control point of the `while (true)` loop of `main`. -/
def step (transit : TransitOps) (m : Menu) : Menu :=
  match m.pc with
  | .askDestination =>
    let cout := m.cout ++ ["Enter your destination:"]
    let (cin, stopA_name) := getline m.cin m.stopA_name
    if transit.stopExists stopA_name then
      { m with pc := .askLocation, cin := cin, stopA_name := stopA_name, cout := cout }
    else
      { m with cin := cin, stopA_name := stopA_name,
               cout := cout ++ ["ERROR: This stop does not exist."] }
  | .askLocation =>
    let cout := m.cout ++ ["Enter your current location:"]
    let (cin, stopB_name) := getline m.cin m.stopB_name
    if transit.stopExists stopB_name then
      { m with pc := .search, cin := cin, stopB_name := stopB_name, cout := cout }
    else
      { m with cin := cin, stopB_name := stopB_name,
               cout := cout ++ ["ERROR: This stop does not exist."] }
  | .search =>
    let a_star_calc := transit.shortest_path_a_star m.stopA_name m.stopB_name
    let dijkstrasCalc := transit.shortest_path_dijkstra m.stopA_name m.stopB_name
    { m with pc := .askExit,
             calls := m.calls ++ [⟨.aStar, m.stopA_name, m.stopB_name⟩,
                                  ⟨.dijkstra, m.stopA_name, m.stopB_name⟩],
             cout := m.cout ++ report a_star_calc dijkstrasCalc }
  | .askExit =>
    let cout := m.cout ++
      ["Exit application? (y to exit, any other character to find new route)"]
    let (cin, exit) := getline m.cin m.exit
    if exit = "y" then
      { m with pc := .halted, cin := cin, exit := exit,
               cout := cout ++ ["Exiting application..."] }
    else
      { m with pc := .askDestination, cin := cin, exit := exit, cout := cout }
  | .halted => m

/-- The state in which `main` enters its loop: routes printed, banner printed, the string
variables empty. -/
def start (transit : TransitOps) (input : Cin) : Menu :=
  { pc := .askDestination, cin := input, stopA_name := "", stopB_name := "", exit := "",
    cout := transit.printRoutes ++ ["", "Welcome to the NYC Subway Pathfinder!", ""],
    calls := [] }

/-- The state after `n` passes. -/
def run (transit : TransitOps) : Nat → Menu → Menu
  | 0, m => m
  | n + 1, m => run transit n (step transit m)

/-- Input made of complete lines, each ended by a newline. -/
def stdin (lines : List String) : Cin :=
  { lines := lines, newlineAtEnd := true, good := true }

/-- The two calls of one round, in program order. -/
def roundCalls (a b : String) : List SearchCall :=
  [⟨.aStar, a, b⟩, ⟨.dijkstra, a, b⟩]

/-- How many of the first `n` passes from `m` were made at control point `p`. -/
def visits (transit : TransitOps) (p : Pc) : Nat → Menu → Nat
  | 0, _ => 0
  | n + 1, m => (if m.pc = p then 1 else 0) + visits transit p n (step transit m)

/-- How many calls in a list went to the given search. -/
def callsTo (a : Algorithm) (calls : List SearchCall) : Nat :=
  calls.countP (fun c => c.algorithm = a)

/-- What holds of the variables at each control point: the names read so far in the round passed
`stopExists`, every search made so far was given such names, and the loop has only been left on
the answer `y`. -/
def Checked (transit : TransitOps) (m : Menu) : Prop :=
  (m.pc = .askLocation → transit.stopExists m.stopA_name = true) ∧
  (m.pc = .search →
    transit.stopExists m.stopA_name = true ∧ transit.stopExists m.stopB_name = true) ∧
  (∀ c ∈ m.calls, transit.stopExists c.first = true ∧ transit.stopExists c.second = true) ∧
  (m.pc = .halted → m.exit = "y")

/-- A sample implementation with two registered stops, used to run the loop on concrete input. -/
def sampleOps : TransitOps :=
  { printRoutes := [],
    stopExists := fun name => name == "Wall St" || name == "Times Sq",
    shortest_path_a_star := fun _ _ => ("", 0, 0),
    shortest_path_dijkstra := fun _ _ => ("", 0, 0) }

/-! ## The routing core: route graph, stop registry and the two searches

The class `Transit` is defined in `Transit.cpp`, which `main.cpp` includes and which is not among
the sources. Its containers are documented in the design notes at the head of `main.cpp`; its
operations are modelled from the specification. -/

/-- Modelled from the spec: the error kinds of section 7 (declared in `Transit.cpp` if anywhere). -/
inductive RoutingError where
  | DuplicateStop
  | UnknownStop
  | InvalidWeight
  | NoPathFound
  | DanglingEdge
deriving DecidableEq, Repr

deriving instance DecidableEq for Except

/-- An outgoing edge as stored in a stop's adjacency set: `pair<string, int>`, the destination
stop id and the route time in seconds. -/
abbrev Edge := String × Int

/-- The three maps of the design notes in `main.cpp`: Map #1 `routes`, stop id to the set of
outgoing edges (`map<string, set<pair<string, int>>>`); Map #2 `stopNames`, stop id to name;
Map #3 `stopIDs`, name to stop id. A map is a list of bindings read by `List.lookup`; a set is
a list kept without duplicates in ascending order. -/
structure Transit where
  routes : List (String × List Edge)
  stopNames : List (String × String)
  stopIDs : List (String × String)
deriving DecidableEq, Repr

/-- The order of `std::string`: lexicographic in the characters. -/
def strLt (a b : String) : Prop := a.data < b.data

instance : DecidableRel strLt :=
  fun a b => inferInstanceAs (Decidable (a.data < b.data))

/-- The order of `pair<string, int>` that `std::set` sorts by: destination first, then time. -/
def edgeLe (a b : Edge) : Prop := strLt a.1 b.1 ∨ (a.1 = b.1 ∧ a.2 ≤ b.2)

instance : DecidableRel edgeLe :=
  fun a b => inferInstanceAs (Decidable (strLt a.1 b.1 ∨ (a.1 = b.1 ∧ a.2 ≤ b.2)))

/-- The call `set.insert(e)`: an element already present is not inserted again. -/
def setInsert (e : Edge) (s : List Edge) : List Edge :=
  if e ∈ s then s else List.orderedInsert edgeLe e s

/-- The assignment `map[k] = v`: rebinds `k`, or adds a binding when there is none. -/
def mapSet {β : Type} (k : String) (v : β) : List (String × β) → List (String × β)
  | [] => [(k, v)]
  | (k2, v2) :: rest => if k2 = k then (k, v) :: rest else (k2, v2) :: mapSet k v rest

/-- Modelled from the spec: `Transit::getAdjacent` (the `neighbors` of section 4.2), whose body is
in `Transit.cpp`: the outgoing edges of a stop, the empty set when it has none. -/
def Transit.getAdjacent (t : Transit) (id : String) : List Edge :=
  (t.routes.lookup id).getD []

/-- Modelled from the spec: `Transit::getStopID` (`idFor` of section 4.1), whose body is in
`Transit.cpp`: the id registered for a name, if any. -/
def Transit.getStopID (t : Transit) (name : String) : Option String :=
  t.stopIDs.lookup name

/-- Modelled from the spec: `Transit::stopExists` (`exists` of section 4.1), whose body is in
`Transit.cpp`: whether a stop of that name is registered. -/
def Transit.stopExists (t : Transit) (name : String) : Bool :=
  (t.getStopID name).isSome

/-- Modelled from the spec: the two policies section 4.2 allows for a repeated insertion with
the same endpoints: the weight is updated (last write wins), or the insertion is silently
ignored. -/
inductive DuplicatePolicy where
  | lastWriteWins
  | ignore
deriving DecidableEq, Repr

/-- Modelled from the spec: insertion of an edge into a stop's adjacency set with
deduplication by destination applied at insertion (sections 3, 4.2 and 9). Under
`lastWriteWins` the edges to the same destination are erased and the new pair inserted; under
`ignore` the set is left as it is when it already holds an edge to that destination. -/
def insertEdge (policy : DuplicatePolicy) (e : Edge) (s : List Edge) : List Edge :=
  match policy with
  | .lastWriteWins => setInsert e (s.filter (fun x => x.1 ≠ e.1))
  | .ignore => if s.any (fun x => x.1 = e.1) then s else setInsert e s

/-- Modelled from the spec: `Transit::insertRoute` (`addEdge` of section 4.2), whose body is in
`Transit.cpp`: a negative weight fails with `InvalidWeight`; otherwise the edge goes into the
adjacency set of `fromId`, the `set<pair<string, int>>` documented in `main.cpp` for Map #1,
and a repeated insertion with the same endpoints collapses to a single edge under the chosen
policy. -/
def Transit.insertRoute (t : Transit) (policy : DuplicatePolicy) (fromId toId : String)
    (weightSeconds : Int) : Except RoutingError Transit :=
  if weightSeconds < 0 then .error .InvalidWeight
  else .ok { t with routes := mapSet fromId
                      (insertEdge policy (toId, weightSeconds) (t.getAdjacent fromId)) t.routes }

/-- The edges of a stop's adjacency set that lead to `toId`. -/
def edgesTo (t : Transit) (fromId toId : String) : List Edge :=
  (t.getAdjacent fromId).filter (fun e => e.1 = toId)

/-- A route from `u`: a chain of edges of the graph together with the sum of their weights. -/
inductive Walk (t : Transit) (u : String) : String → Int → Prop where
  | nil : Walk t u u 0
  | snoc {v x : String} {c w : Int} :
      Walk t u v c → (x, w) ∈ t.getAdjacent v → Walk t u x (c + w)

/-- All edge weights of the network are non-negative. -/
def NonNegative (t : Transit) : Prop :=
  ∀ u, ∀ e ∈ t.getAdjacent u, 0 ≤ e.2

/-- A heuristic is consistent when it drops by at most the weight along every edge. -/
def Consistent (t : Transit) (h : String → Int) : Prop :=
  ∀ u, ∀ e ∈ t.getAdjacent u, h u ≤ e.2 + h e.1

/-- Modelled from the spec: the Path Result of section 3 without its wall-clock duration: the
stop ids from source to destination and the accumulated weight. -/
structure PathResult where
  path : List String
  total : Int
deriving DecidableEq, Repr

/-- Modelled from the spec: the working data of a search (section 4.3): the frontier of (cumulative cost, stop id) entries, the map
from stop id to best known cost, the predecessor map, and the closed set of settled stops. -/
structure SearchState where
  frontier : List (Int × String)
  cost : List (String × Int)
  pred : List (String × String)
  closed : List String
deriving DecidableEq, Repr

/-- Modelled from the spec: the frontier entry of least priority, ties going to the
lexicographically smaller stop id (section 4.3). -/
def minEntry (key : Int × String → Int) : List (Int × String) → Option (Int × String)
  | [] => none
  | e :: es =>
    match minEntry key es with
    | none => some e
    | some m => if key e < key m ∨ (key e = key m ∧ strLt e.2 m.2) then some e else some m

/-- Modelled from the spec: relaxing one edge out of the stop `u` settled at cost `c` (the
best-known-cost and predecessor maps of section 4.3): a destination that is not closed
and has no cost yet, or a larger one, gets the new cost, `u` as predecessor, and a frontier
entry. -/
def relax (u : String) (c : Int) (st : SearchState) (e : Edge) : SearchState :=
  if e.1 ∈ st.closed then st
  else
    match st.cost.lookup e.1 with
    | some old =>
      if c + e.2 < old then
        { st with frontier := (c + e.2, e.1) :: st.frontier, cost := (e.1, c + e.2) :: st.cost,
                  pred := (e.1, u) :: st.pred }
      else st
    | none =>
      { st with frontier := (c + e.2, e.1) :: st.frontier, cost := (e.1, c + e.2) :: st.cost,
                pred := (e.1, u) :: st.pred }

/-- Modelled from the spec: settling `u` at cost `c` (section 4.3): it joins the closed set, so
that it is never expanded again, and its outgoing edges are relaxed. -/
def expand (t : Transit) (u : String) (c : Int) (st : SearchState) : SearchState :=
  (t.getAdjacent u).foldl (relax u c) { st with closed := u :: st.closed }

/-- Modelled from the spec: the scan shared by both searches of sections 4.3 and 4.4, whose
bodies are in `Transit.cpp`. The entry of least priority is popped; an entry of a closed stop is
dropped; popping the destination ends the scan with its cost; any other stop is settled; an
empty frontier means `NoPathFound`. `none` means the given number of iterations did not
suffice. -/
def searchLoop (t : Transit) (key : Int × String → Int) (destination : String) :
    Nat → SearchState → Option (Except RoutingError (Int × SearchState))
  | 0, _ => none
  | fuel + 1, st =>
    match minEntry key st.frontier with
    | none => some (.error .NoPathFound)
    | some e =>
      let rest := st.frontier.erase e
      if e.2 ∈ st.closed then searchLoop t key destination fuel { st with frontier := rest }
      else if e.2 = destination then some (.ok (e.1, st))
      else searchLoop t key destination fuel (expand t e.2 e.1 { st with frontier := rest })

/-- Modelled from the spec: the state a search starts in: the source on the frontier at
cost 0. -/
def initialState (source : String) : SearchState :=
  { frontier := [(0, source)], cost := [(source, 0)], pred := [], closed := [] }

/-- A bound on the iterations of a scan: one per frontier entry, of which there is the initial
one and at most one per edge of a settled stop. -/
def searchFuel (t : Transit) : Nat :=
  (t.routes.map (fun r => (t.getAdjacent r.1).length)).sum + 2

/-- Modelled from the spec: path reconstruction (section 4.3), following the predecessor map
back from `v` to the source. -/
def walkBack (pred : List (String × String)) (source : String) :
    Nat → String → List String → List String
  | 0, v, acc => v :: acc
  | n + 1, v, acc =>
    if v = source then v :: acc
    else
      match pred.lookup v with
      | none => v :: acc
      | some p => walkBack pred source n p (v :: acc)

/-- Modelled from the spec: the query of section 6, with the frontier priority in place of the
algorithm tag: both names are resolved through the registry (`UnknownStop` if either is not
registered), then the scan runs on stop ids. -/
def findShortestPath (t : Transit) (key : Int × String → Int) (sourceName destName : String) :
    Except RoutingError PathResult :=
  match t.getStopID sourceName, t.getStopID destName with
  | some source, some destination =>
    match searchLoop t key destination (searchFuel t) (initialState source) with
    | some (.ok (c, st)) =>
      .ok { path := walkBack st.pred source st.pred.length destination [], total := c }
    | some (.error e) => .error e
    | none => .error .NoPathFound
  | _, _ => .error .UnknownStop

/-- Modelled from the spec: `Transit::shortest_path_dijkstra` (section 4.3), whose body is in
`Transit.cpp`: uniform-cost search, the frontier ordered by cumulative cost. -/
def Transit.shortest_path_dijkstra (t : Transit) (sourceName destName : String) :
    Except RoutingError PathResult :=
  findShortestPath t (fun e => e.1) sourceName destName

/-- Modelled from the spec: heuristic-guided search (section 4.4) for a given estimate
`h destination stop` of the remaining cost: the frontier is ordered by cumulative cost plus the
estimate. -/
def aStarWith (heuristic : String → String → Int) (t : Transit) (sourceName destName : String) :
    Except RoutingError PathResult :=
  match t.getStopID destName with
  | some destination =>
    findShortestPath t (fun e => e.1 + heuristic destination e.2) sourceName destName
  | none => .error .UnknownStop

/-- Modelled from the spec: the estimate used when no positional data is available
(section 9): zero everywhere. -/
def zeroHeuristic (_destination _stop : String) : Int := 0

/-- Modelled from the spec: `Transit::shortest_path_a_star` (section 4.4), whose body is in
`Transit.cpp`; the network carries no positional data, so the estimate is the zero function. -/
def Transit.shortest_path_a_star (t : Transit) (sourceName destName : String) :
    Except RoutingError PathResult :=
  aStarWith zeroHeuristic t sourceName destName

/-- The network of the concrete scenario: A→B (60 s), B→C (120 s), A→C (300 s). -/
def abcNetwork : Transit :=
  { routes := [("A", [("B", 60), ("C", 300)]), ("B", [("C", 120)])],
    stopNames := [("A", "A"), ("B", "B"), ("C", "C")],
    stopIDs := [("A", "A"), ("B", "B"), ("C", "C")] }

/-- Two registered stops with no route between them. -/
def islands : Transit :=
  { routes := [],
    stopNames := [("A", "A"), ("B", "B")],
    stopIDs := [("A", "A"), ("B", "B")] }

/-- An estimate for `abcNetwork` that is not zero: the remaining time to C from each stop. -/
def abcHeuristic (_destination stop : String) : Int :=
  if stop = "A" then 180 else if stop = "B" then 120 else 0

/-- A network with a detour: S→A (1 s), A→B (1 s), S→B (3 s), B→G (5 s). -/
def detour : Transit :=
  { routes := [("S", [("A", 1), ("B", 3)]), ("A", [("B", 1)]), ("B", [("G", 5)])],
    stopNames := [("S", "S"), ("A", "A"), ("B", "B"), ("G", "G")],
    stopIDs := [("S", "S"), ("A", "A"), ("B", "B"), ("G", "G")] }

/-- An estimate for `detour` that never exceeds the remaining time to G (6 s from A) but drops
by 5 along the edge A→B of weight 1. -/
def steepHeuristic (_destination stop : String) : Int :=
  if stop = "A" then 5 else 0

/-- The invariant of section 3: between any two stops there is at most one edge. -/
def OneEdgePerDestination (t : Transit) : Prop :=
  ∀ fromId toId, (edgesTo t fromId toId).length ≤ 1

/-! ## Invariants of the scan -/

/-- An edge out of a stop settled at cost `cx` has been relaxed: its destination is closed or has
a known cost of at most `cx` plus the weight. -/
def Relaxed (st : SearchState) (cx : Int) (e : Edge) : Prop :=
  e.1 ∈ st.closed ∨ ∃ cv, st.cost.lookup e.1 = some cv ∧ cv ≤ cx + e.2

/-- The stop `x` is settled with respect to the given edges: its known cost is the least weight
of a route from the source, and each of the edges has been relaxed. -/
def Settled (t : Transit) (source : String) (st : SearchState) (x : String)
    (edges : List Edge) : Prop :=
  ∃ cx, st.cost.lookup x = some cx ∧ (∀ c, Walk t source x c → cx ≤ c) ∧
    ∀ e ∈ edges, Relaxed st cx e

/-- What the frontier and the cost map satisfy throughout a scan: every frontier entry is the
weight of a route from the source; the source is closed or on the frontier at cost 0; every
frontier stop has a known cost no larger than its entry; the known cost of an open stop is on
the frontier; the destination is open. -/
structure Core (t : Transit) (source destination : String) (st : SearchState) : Prop where
  sound : ∀ e ∈ st.frontier, Walk t source e.2 e.1
  source_open : source ∈ st.closed ∨ (0, source) ∈ st.frontier
  known : ∀ e ∈ st.frontier, ∃ c, st.cost.lookup e.2 = some c ∧ c ≤ e.1
  queued : ∀ v c, st.cost.lookup v = some c → v ∉ st.closed → (c, v) ∈ st.frontier
  dest_open : destination ∉ st.closed

/-- The invariant of the scan: the core facts, and every closed stop is settled with respect to
all its outgoing edges. -/
def SearchInv (t : Transit) (source destination : String) (st : SearchState) : Prop :=
  Core t source destination st ∧ ∀ x ∈ st.closed, Settled t source st x (t.getAdjacent x)

/-- Known costs only go down from `st` to `st2`, and stay as they are for closed stops. -/
def CostLe (st st2 : SearchState) : Prop :=
  ∀ x cx, st.cost.lookup x = some cx →
    ∃ cx2, st2.cost.lookup x = some cx2 ∧ cx2 ≤ cx ∧ (x ∈ st.closed → cx2 = cx)

/-- The edges still to be relaxed: those of the stops of the route map that are not closed. -/
def openEdges (t : Transit) (closed : List String) : Nat :=
  ((t.routes.map (fun r => r.1)).filter (fun x => x ∉ closed)).map
    (fun x => (t.getAdjacent x).length) |>.sum

/-- The quantity that every iteration of the scan decreases. -/
def measure (t : Transit) (st : SearchState) : Nat :=
  st.frontier.length + openEdges t st.closed

/-! ## The searches of the routing core called from `main` -/

/-- Modelled from the spec: how a search of the routing core hands its outcome to `main`. A
result is returned as the tuple `main` declares, `pack` standing for the path text and the run
time that `Transit.cpp` writes into it; a failure is signalled to the caller (sections 4.3 and
7) and no tuple is returned. -/
def callSearch (pack : PathResult → String × ℚ × ℤ)
    (outcome : Except RoutingError PathResult) : Except RoutingError (String × ℚ × ℤ) :=
  match outcome with
  | .ok r => .ok (pack r)
  | .error e => .error e

/-- The search point of `main` (lines 101 to 116) run against the routing core. The two calls
are made in program order. `main` has no handler, so a failure signalled by a call leaves `main`
at that call: a later call is not made and nothing is printed. When both calls return, the
report is printed and control goes to the exit question, as in `step`. The second component is
the failure `main` was left with, if any. -/
def searchPass (t : Transit) (pack : PathResult → String × ℚ × ℤ) (m : Menu) :
    Menu × Option RoutingError :=
  match callSearch pack (t.shortest_path_a_star m.stopA_name m.stopB_name) with
  | .error e =>
    ({ m with calls := m.calls ++ [⟨.aStar, m.stopA_name, m.stopB_name⟩] }, some e)
  | .ok a_star_calc =>
    match callSearch pack (t.shortest_path_dijkstra m.stopA_name m.stopB_name) with
    | .error e =>
      ({ m with calls := m.calls ++ roundCalls m.stopA_name m.stopB_name }, some e)
    | .ok dijkstrasCalc =>
      ({ m with pc := .askExit,
                calls := m.calls ++ roundCalls m.stopA_name m.stopB_name,
                cout := m.cout ++ report a_star_calc dijkstrasCalc }, none)

/-- A state of `main` at the search point, both names read. -/
def atSearch (stopA_name stopB_name : String) (cout : List String) : Menu :=
  { pc := .search, cin := stdin [], stopA_name := stopA_name, stopB_name := stopB_name,
    exit := "", cout := cout, calls := [] }

/-- A packing of results into tuples for running `searchPass` on concrete input: the ids joined
by arrows, the total as seconds, no run time. -/
def samplePack (r : PathResult) : String × ℚ × ℤ :=
  (" -> ".intercalate r.path, (r.total : ℚ), 0)

/-! ## Durations -/

theorem roundHalfEven_intCast (z : ℤ) : roundHalfEven (z : ℚ) = z := by
  simp [roundHalfEven]

theorem le_roundHalfEven {z : ℤ} {m : ℚ} (h : (z : ℚ) ≤ m) : z ≤ roundHalfEven m := by
  have hf : z ≤ ⌊m⌋ := Int.le_floor.mpr h
  unfold roundHalfEven
  simp only
  split_ifs <;> omega

theorem roundHalfEven_le_pred {z : ℤ} {m : ℚ} (h : m < (z : ℚ) - 1 / 2) :
    roundHalfEven m ≤ z - 1 := by
  have hf : ⌊m⌋ ≤ z - 1 := by
    have : ⌊m⌋ < z := Int.floor_lt.mpr (by linarith)
    omega
  rcases lt_or_eq_of_le hf with hlt | heq
  · unfold roundHalfEven
    simp only
    split_ifs <;> omega
  · have hd : m - (⌊m⌋ : ℚ) < 1 / 2 := by
      rw [heq]; push_cast; linarith
    unfold roundHalfEven
    simp only
    rw [if_pos hd]
    omega

theorem ulpExp_spec {q : ℚ} (h0 : 0 < q) (h : q < 2 ^ 24) :
    ∃ j : ℕ, ulpExp q = -(j : ℤ) ∧ q * 2 ^ j < 2 ^ 24 ∧
      ((2 : ℚ) ^ 23 ≤ q * 2 ^ j ∨ j = 149) := by
  have hlo : ((2 : ℕ) : ℚ) ^ Int.log 2 q ≤ q := Int.zpow_log_le_self (by norm_num) h0
  have hhi : q < ((2 : ℕ) : ℚ) ^ (Int.log 2 q + 1) := Int.lt_zpow_succ_log_self (by norm_num) q
  push_cast at hlo hhi
  have he : Int.log 2 q < 24 := by
    have h1 : (2 : ℚ) ^ Int.log 2 q < 2 ^ (24 : ℤ) := by
      refine lt_of_le_of_lt hlo ?_
      rw [show (2 : ℚ) ^ (24 : ℤ) = 2 ^ (24 : ℕ) from zpow_natCast 2 24]
      exact h
    exact (zpow_lt_zpow_iff_right₀ (by norm_num : (1 : ℚ) < 2)).mp h1
  unfold ulpExp
  rw [abs_of_pos h0]
  rcases le_total (Int.log 2 q - 23) (-149) with hc | hc
  · refine ⟨149, by rw [max_eq_right hc]; rfl, ?_, Or.inr rfl⟩
    have h2 : (2 : ℚ) ^ (Int.log 2 q + 1) ≤ 2 ^ (-(125 : ℤ)) :=
      zpow_le_zpow_right₀ (by norm_num) (by omega)
    have h3 : q < 2 ^ (-(125 : ℤ)) := lt_of_lt_of_le hhi h2
    have h4 : q * 2 ^ (149 : ℕ) < 2 ^ (-(125 : ℤ)) * 2 ^ (149 : ℕ) :=
      mul_lt_mul_of_pos_right h3 (by positivity)
    refine lt_of_lt_of_le h4 ?_
    norm_num
  · obtain ⟨j, hj⟩ : ∃ j : ℕ, (j : ℤ) = 23 - Int.log 2 q := ⟨(23 - Int.log 2 q).toNat, by omega⟩
    have hpow : (2 : ℚ) ^ j = 2 ^ ((j : ℤ)) := (zpow_natCast 2 j).symm
    refine ⟨j, by rw [max_eq_left hc]; omega, ?_, Or.inl ?_⟩
    · have : q * 2 ^ j < 2 ^ (Int.log 2 q + 1) * 2 ^ ((j : ℤ)) := by
        rw [hpow]; exact mul_lt_mul_of_pos_right hhi (by positivity)
      refine lt_of_lt_of_le this ?_
      rw [← zpow_add₀ (by norm_num : (2 : ℚ) ≠ 0), hj]
      have : Int.log 2 q + 1 + (23 - Int.log 2 q) = (24 : ℕ) := by omega
      rw [this, zpow_natCast]
    · have : (2 : ℚ) ^ Int.log 2 q * 2 ^ ((j : ℤ)) ≤ q * 2 ^ j := by
        rw [hpow]; exact mul_le_mul_of_nonneg_right hlo (by positivity)
      refine le_trans ?_ this
      rw [← zpow_add₀ (by norm_num : (2 : ℚ) ≠ 0), hj]
      have : Int.log 2 q + (23 - Int.log 2 q) = (23 : ℕ) := by omega
      rw [this, zpow_natCast]

theorem roundF32_eq {q : ℚ} (h0 : 0 < q) {j : ℕ} (hj : ulpExp q = -(j : ℤ)) :
    roundF32 q = (roundHalfEven (q * 2 ^ j) : ℚ) / 2 ^ j := by
  unfold roundF32
  rw [if_neg (ne_of_gt h0), hj, zpow_neg, zpow_natCast]
  rw [div_eq_mul_inv, inv_inv, div_eq_mul_inv]

/-- Whole numbers below 2^24 are binary32 values. -/
theorem roundF32_natCast (n : ℕ) (h : n < 2 ^ 24) : roundF32 (n : ℚ) = n := by
  rcases Nat.eq_zero_or_pos n with rfl | hpos
  · simp [roundF32]
  · have h0 : (0 : ℚ) < n := by exact_mod_cast hpos
    have hlt : (n : ℚ) < 2 ^ 24 := by exact_mod_cast h
    obtain ⟨j, hj, -, -⟩ := ulpExp_spec h0 hlt
    rw [roundF32_eq h0 hj]
    have : (n : ℚ) * 2 ^ j = ((n * 2 ^ j : ℕ) : ℤ) := by push_cast; ring
    rw [this, roundHalfEven_intCast]
    push_cast
    field_simp

/-- Dividing a whole number below 2^24 in binary32 and truncating gives the integer quotient. -/
theorem truncToInt_roundF32_div (a d : ℕ) (ha : a < 2 ^ 24) (hd0 : 0 < d) (hd : d < 2 ^ 24) :
    truncToInt (roundF32 ((a : ℚ) / d)) = ((a / d : ℕ) : ℤ) := by
  have hdq : (0 : ℚ) < d := by exact_mod_cast hd0
  rcases Nat.eq_zero_or_pos a with rfl | hapos
  · simp [roundF32, truncToInt]
  have h0 : (0 : ℚ) < (a : ℚ) / d := div_pos (by exact_mod_cast hapos) hdq
  have hlt : (a : ℚ) / d < 2 ^ 24 := by
    have h1 : (a : ℚ) / d ≤ a := div_le_self (by positivity) (by exact_mod_cast hd0)
    have h2 : (a : ℚ) < 2 ^ 24 := by exact_mod_cast ha
    linarith
  obtain ⟨j, hj, hhi, hlo⟩ := ulpExp_spec h0 hlt
  rw [roundF32_eq h0 hj]
  set K := a / d with hK
  have hp : (0 : ℚ) < 2 ^ j := by positivity
  -- the quotient lies between K and K + 1 - 1/d
  have hKle : (K : ℚ) * d ≤ a := by
    have : K * d ≤ a := Nat.div_mul_le_self a d
    exact_mod_cast this
  have hKlt : (a : ℚ) + 1 ≤ ((K : ℚ) + 1) * d := by
    have : a + 1 ≤ (K + 1) * d := by
      have := Nat.lt_mul_div_succ a hd0
      rw [Nat.mul_comm] at this
      exact this
    exact_mod_cast this
  -- the divisor is below twice the scaling factor
  have hdj : (d : ℚ) < 2 * 2 ^ j := by
    rcases hlo with hlo | rfl
    · have h1 : (2 : ℚ) ^ 23 * d ≤ a * 2 ^ j := by
        have := mul_le_mul_of_nonneg_right hlo hdq.le
        rwa [div_mul_eq_mul_div, div_mul_cancel₀ _ (ne_of_gt hdq)] at this
      have h2 : (a : ℚ) < 2 ^ 24 := by exact_mod_cast ha
      have h3 : (a : ℚ) * 2 ^ j < 2 ^ 24 * 2 ^ j := mul_lt_mul_of_pos_right h2 hp
      nlinarith
    · have h1 : (d : ℚ) < 2 ^ 24 := by exact_mod_cast hd
      have h2 : (2 : ℚ) ^ 24 ≤ 2 * 2 ^ 149 := by norm_num
      linarith
  set m : ℚ := (a : ℚ) / d * 2 ^ j with hm
  have hmd : m * d = a * 2 ^ j := by
    rw [hm]; field_simp
  have hge : (((K * 2 ^ j : ℕ) : ℤ) : ℚ) ≤ m := by
    push_cast
    have : (K : ℚ) * 2 ^ j * d ≤ m * d := by
      rw [hmd]; nlinarith
    exact le_of_mul_le_mul_right this hdq
  have hle : m < ((((K + 1) * 2 ^ j : ℕ) : ℤ) : ℚ) - 1 / 2 := by
    push_cast
    have : m * d < (((K : ℚ) + 1) * 2 ^ j - 1 / 2) * d := by
      rw [hmd]; nlinarith
    exact lt_of_mul_lt_mul_right this hdq.le
  have h1 := le_roundHalfEven hge
  have h2 := roundHalfEven_le_pred hle
  set R := roundHalfEven m with hR
  have hRlo : (K : ℚ) ≤ (R : ℚ) / 2 ^ j := by
    rw [le_div_iff₀ hp]
    have : (((K * 2 ^ j : ℕ) : ℤ) : ℚ) ≤ (R : ℚ) := by exact_mod_cast h1
    push_cast at this
    exact this
  have hRhi : (R : ℚ) / 2 ^ j < (K : ℚ) + 1 := by
    rw [div_lt_iff₀ hp]
    have : (R : ℚ) ≤ ((((K + 1) * 2 ^ j : ℕ) : ℤ) : ℚ) - 1 := by exact_mod_cast h2
    push_cast at this
    linarith
  have hnn : (0 : ℚ) ≤ (R : ℚ) / 2 ^ j := le_trans (by positivity) hRlo
  unfold truncToInt
  rw [if_pos hnn, Int.floor_eq_iff]
  constructor
  · exact_mod_cast hRlo
  · exact_mod_cast hRhi

theorem roundF32_ofNat_3600 : roundF32 3600 = 3600 := by
  have := roundF32_natCast 3600 (by norm_num)
  simpa using this

theorem roundF32_ofNat_60 : roundF32 60 = 60 := by
  have := roundF32_natCast 60 (by norm_num)
  simpa using this

theorem truncToInt_natCast (n : ℕ) : truncToInt (n : ℚ) = n := by
  unfold truncToInt
  rw [if_pos (by positivity)]
  exact_mod_cast Int.floor_natCast (α := ℚ) n

theorem secondsToHMS_natCast (s : ℕ) (hs : s < 2 ^ 24) :
    secondsToHMS (s : ℚ) = (((s / 3600 : ℕ) : ℤ), ((s % 3600 / 60 : ℕ) : ℤ), ((s % 60 : ℕ) : ℤ)) := by
  have hH : truncToInt (roundF32 ((s : ℚ) / roundF32 3600)) = ((s / 3600 : ℕ) : ℤ) := by
    rw [roundF32_ofNat_3600]
    have := truncToInt_roundF32_div s 3600 hs (by norm_num) (by norm_num)
    simpa using this
  have hsub1 : roundF32 ((s : ℚ) - roundF32 ((((s / 3600 : ℕ) : ℤ) * 3600 : ℤ) : ℚ))
      = ((s % 3600 : ℕ) : ℚ) := by
    have e1 : (((((s / 3600 : ℕ) : ℤ) * 3600 : ℤ)) : ℚ) = ((s / 3600 * 3600 : ℕ) : ℚ) := by
      simp only [Int.cast_mul, Int.cast_natCast, Nat.cast_mul, Int.cast_ofNat, Nat.cast_ofNat]
    rw [e1, roundF32_natCast _ (by omega)]
    have e2 : (s : ℚ) - ((s / 3600 * 3600 : ℕ) : ℚ) = ((s % 3600 : ℕ) : ℚ) := by
      have : s = s / 3600 * 3600 + s % 3600 := by omega
      have hq : (s : ℚ) = ((s / 3600 * 3600 + s % 3600 : ℕ) : ℚ) := by exact_mod_cast this
      rw [hq]; push_cast; ring
    rw [e2, roundF32_natCast _ (by omega)]
  have hM : truncToInt (roundF32 (((s % 3600 : ℕ) : ℚ) / roundF32 60))
      = ((s % 3600 / 60 : ℕ) : ℤ) := by
    rw [roundF32_ofNat_60]
    have := truncToInt_roundF32_div (s % 3600) 60 (by omega) (by norm_num) (by norm_num)
    simpa using this
  have hsub2 : roundF32 ((s : ℚ) - roundF32
      ((((s / 3600 : ℕ) : ℤ) * 3600 + ((s % 3600 / 60 : ℕ) : ℤ) * 60 : ℤ) : ℚ))
      = ((s % 60 : ℕ) : ℚ) := by
    have e1 : (((((s / 3600 : ℕ) : ℤ) * 3600 + ((s % 3600 / 60 : ℕ) : ℤ) * 60 : ℤ)) : ℚ)
        = ((s / 3600 * 3600 + s % 3600 / 60 * 60 : ℕ) : ℚ) := by
      simp only [Int.cast_mul, Int.cast_add, Int.cast_natCast, Nat.cast_mul, Nat.cast_add,
        Int.cast_ofNat, Nat.cast_ofNat]
    rw [e1, roundF32_natCast _ (by omega)]
    have e2 : (s : ℚ) - ((s / 3600 * 3600 + s % 3600 / 60 * 60 : ℕ) : ℚ)
        = ((s % 60 : ℕ) : ℚ) := by
      have : s = s / 3600 * 3600 + s % 3600 / 60 * 60 + s % 60 := by omega
      have hq : (s : ℚ) = ((s / 3600 * 3600 + s % 3600 / 60 * 60 + s % 60 : ℕ) : ℚ) := by
        exact_mod_cast this
      rw [hq]; push_cast; ring
    rw [e2, roundF32_natCast _ (by omega)]
  unfold secondsToHMS
  simp only [hH, hsub1, hM, hsub2, truncToInt_natCast]

theorem putInt_two_digits :
    ∀ n < 100, putInt 2 '0' ((n : ℕ) : ℤ)
      = String.mk [Nat.digitChar (n / 10), Nat.digitChar (n % 10)] := by
  decide

theorem digitChar_inj :
    ∀ a < 10, ∀ b < 10, Nat.digitChar a = Nat.digitChar b → a = b := by
  decide

theorem secondsToHMSFormat_eq_hmsText (s : ℕ) (hs : s < 360000) :
    secondsToHMSFormat (s : ℚ) = hmsText (s / 3600) (s % 3600 / 60) (s % 60) := by
  unfold secondsToHMSFormat
  rw [secondsToHMS_natCast s (by omega)]
  simp only
  rw [putInt_two_digits _ (by omega), putInt_two_digits _ (by omega),
    putInt_two_digits _ (by omega)]
  rfl

theorem hmsText_inj {h m s h2 m2 s2 : ℕ} (hh : h < 100) (hm : m < 60) (hs : s < 60)
    (hh2 : h2 < 100) (hm2 : m2 < 60) (hs2 : s2 < 60)
    (e : hmsText h m s = hmsText h2 m2 s2) : h = h2 ∧ m = m2 ∧ s = s2 := by
  unfold hmsText at e
  have e2 := congrArg String.data e
  simp only [List.cons.injEq, and_true, true_and] at e2
  obtain ⟨a1, a2, a3, a4, a5, a6⟩ := e2
  have b1 := digitChar_inj _ (by omega) _ (by omega) a1
  have b2 := digitChar_inj _ (Nat.mod_lt _ (by norm_num)) _ (Nat.mod_lt _ (by norm_num)) a2
  have b3 := digitChar_inj _ (by omega) _ (by omega) a3
  have b4 := digitChar_inj _ (Nat.mod_lt _ (by norm_num)) _ (Nat.mod_lt _ (by norm_num)) a4
  have b5 := digitChar_inj _ (by omega) _ (by omega) a5
  have b6 := digitChar_inj _ (Nat.mod_lt _ (by norm_num)) _ (Nat.mod_lt _ (by norm_num)) a6
  omega

/-- C8: for every whole number of seconds `s` below 2^24, the values computed by
`secondsToHMSFormat` are `hours = s / 3600`, `minutes = s % 3600 / 60` and `secs = s % 60`, so
that `minutes` and `secs` are below 60 and `hours * 3600 + minutes * 60 + secs = s`. -/
theorem secondsToHMSFormat_components (s : ℕ) (hs : s < 2 ^ 24) :
    ∃ hours minutes secs : ℕ,
      secondsToHMS (s : ℚ) = ((hours : ℤ), (minutes : ℤ), (secs : ℤ)) ∧
      hours = s / 3600 ∧ minutes = s % 3600 / 60 ∧ secs = s % 60 ∧
      minutes < 60 ∧ secs < 60 ∧ hours * 3600 + minutes * 60 + secs = s := by
  refine ⟨s / 3600, s % 3600 / 60, s % 60, secondsToHMS_natCast s hs, rfl, rfl, rfl, ?_, ?_, ?_⟩
    <;> omega

theorem secondsToHMSFormat_components_witness :
    (3725 : ℕ) < 2 ^ 24 ∧ ∃ hours minutes secs : ℕ,
      secondsToHMS ((3725 : ℕ) : ℚ) = ((hours : ℤ), (minutes : ℤ), (secs : ℤ)) ∧
      hours = 3725 / 3600 ∧ minutes = 3725 % 3600 / 60 ∧ secs = 3725 % 60 ∧
      minutes < 60 ∧ secs < 60 ∧ hours * 3600 + minutes * 60 + secs = 3725 :=
  ⟨by norm_num, secondsToHMSFormat_components 3725 (by norm_num)⟩

/-- C9: for whole numbers of seconds `s`, `t` below 360000, `secondsToHMSFormat s` is the
19-character text "HH H : MM M : SS S " with hours, minutes and seconds as two decimal digits
each, and equal texts for `s` and `t` force `s = t`. -/
theorem secondsToHMSFormat_text (s t : ℕ) (hs : s < 360000) (ht : t < 360000) :
    secondsToHMSFormat (s : ℚ) = hmsText (s / 3600) (s % 3600 / 60) (s % 60) ∧
      (secondsToHMSFormat (s : ℚ)).length = 19 ∧
      (secondsToHMSFormat (s : ℚ) = secondsToHMSFormat (t : ℚ) → s = t) := by
  refine ⟨secondsToHMSFormat_eq_hmsText s hs, ?_, fun e => ?_⟩
  · rw [secondsToHMSFormat_eq_hmsText s hs]; rfl
  · rw [secondsToHMSFormat_eq_hmsText s hs, secondsToHMSFormat_eq_hmsText t ht] at e
    have := hmsText_inj (by omega) (by omega) (by omega) (by omega) (by omega) (by omega) e
    omega

theorem secondsToHMSFormat_text_witness :
    (3725 : ℕ) < 360000 ∧ (59 : ℕ) < 360000 ∧
      secondsToHMSFormat ((3725 : ℕ) : ℚ) = "01 H : 02 M : 05 S " ∧
      (secondsToHMSFormat ((3725 : ℕ) : ℚ)).length = 19 :=
  ⟨by norm_num, by norm_num,
    ((secondsToHMSFormat_text 3725 59 (by norm_num) (by norm_num)).1).trans (by decide),
    (secondsToHMSFormat_text 3725 59 (by norm_num) (by norm_num)).2.1⟩

/-! ## The menu loop -/

theorem run_add (transit : TransitOps) (a b : Nat) (m : Menu) :
    run transit (a + b) m = run transit b (run transit a m) := by
  induction a generalizing m with
  | zero => simp [run]
  | succ a ih => rw [Nat.succ_add]; exact ih (step transit m)

theorem run_succ_last (transit : TransitOps) (n : Nat) (m : Menu) :
    run transit (n + 1) m = step transit (run transit n m) := by
  rw [run_add]; rfl

theorem visits_succ_last (transit : TransitOps) (p : Pc) (n : Nat) (m : Menu) :
    visits transit p (n + 1) m
      = visits transit p n m + (if (run transit n m).pc = p then 1 else 0) := by
  induction n generalizing m with
  | zero => simp [visits, run]
  | succ n ih =>
    rw [visits, ih (step transit m)]
    simp only [visits, run]
    omega

theorem getline_of_good {cin : Cin} (str l : String) (rest : List String)
    (hg : cin.good = true) (hl : cin.lines = l :: rest) :
    getline cin str
      = ({ cin with lines := rest, good := !rest.isEmpty || cin.newlineAtEnd }, l) := by
  unfold getline
  rw [if_pos hg]
  split
  · next h => rw [hl] at h; cases h
  · next l2 rest2 h =>
    rw [hl] at h
    cases h
    rfl

theorem checked_start (transit : TransitOps) (input : Cin) :
    Checked transit (start transit input) := by
  refine ⟨?_, ?_, ?_, ?_⟩ <;> simp [start]

theorem checked_step (transit : TransitOps) (m : Menu) (h : Checked transit m) :
    Checked transit (step transit m) := by
  obtain ⟨h1, h2, h3, h4⟩ := h
  unfold step
  split
  · next hpc =>
    simp only
    split
    · next he => exact ⟨fun _ => he, by simp, h3, by simp⟩
    · next he => exact ⟨by simp [hpc], by simp [hpc], h3, by simp [hpc]⟩
  · next hpc =>
    simp only
    split
    · next he => exact ⟨by simp, fun _ => ⟨h1 hpc, he⟩, h3, by simp⟩
    · next he => exact ⟨fun _ => h1 hpc, by simp [hpc], h3, by simp [hpc]⟩
  · next hpc =>
    refine ⟨by simp, by simp, ?_, by simp⟩
    intro c hc
    simp only [List.mem_append, List.mem_cons, List.mem_singleton, List.not_mem_nil,
      or_false] at hc
    rcases hc with hc | rfl | rfl
    · exact h3 c hc
    · exact h2 hpc
    · exact h2 hpc
  · next hpc =>
    simp only
    split
    · next he => exact ⟨by simp, by simp, h3, fun _ => he⟩
    · next he => exact ⟨by simp, by simp, h3, by simp⟩
  · exact ⟨h1, h2, h3, h4⟩

theorem checked_run (transit : TransitOps) (n : Nat) (m : Menu) (h : Checked transit m) :
    Checked transit (run transit n m) := by
  induction n generalizing m with
  | zero => exact h
  | succ n ih => exact ih _ (checked_step transit m h)

theorem step_search (transit : TransitOps) (m : Menu) (h : m.pc = .search) :
    step transit m =
      { m with pc := .askExit,
               calls := m.calls ++ roundCalls m.stopA_name m.stopB_name,
               cout := m.cout ++ report (transit.shortest_path_a_star m.stopA_name m.stopB_name)
                 (transit.shortest_path_dijkstra m.stopA_name m.stopB_name) } := by
  unfold step
  rw [h]
  rfl

theorem step_calls_of_ne_search (transit : TransitOps) (m : Menu) (h : m.pc ≠ .search) :
    (step transit m).calls = m.calls := by
  unfold step
  split
  · simp only; split <;> rfl
  · simp only; split <;> rfl
  · next hpc => exact absurd hpc h
  · simp only; split <;> rfl
  · rfl

theorem step_askExit_pc (transit : TransitOps) (m : Menu) (h : m.pc = .askExit) :
    (step transit m).pc
      = (if (getline m.cin m.exit).2 = "y" then Pc.halted else Pc.askDestination) ∧
    (step transit m).exit = (getline m.cin m.exit).2 ∧
    (step transit m).cin = (getline m.cin m.exit).1 := by
  unfold step
  rw [h]
  simp only
  split <;> simp_all

theorem step_pc_of_askDestination (transit : TransitOps) (m : Menu) (h : m.pc = .askDestination) :
    (step transit m).pc
      = (if transit.stopExists (getline m.cin m.stopA_name).2 = true
          then Pc.askLocation else Pc.askDestination) ∧
    (step transit m).stopA_name = (getline m.cin m.stopA_name).2 ∧
    (step transit m).cin = (getline m.cin m.stopA_name).1 ∧
    (step transit m).stopB_name = m.stopB_name ∧
    ∃ tail, (step transit m).cout = m.cout ++ "Enter your destination:" :: tail := by
  unfold step
  rw [h]
  simp only
  split <;> simp_all

theorem step_pc_of_askLocation (transit : TransitOps) (m : Menu) (h : m.pc = .askLocation) :
    (step transit m).pc
      = (if transit.stopExists (getline m.cin m.stopB_name).2 = true
          then Pc.search else Pc.askLocation) ∧
    (step transit m).stopB_name = (getline m.cin m.stopB_name).2 ∧
    (step transit m).cin = (getline m.cin m.stopB_name).1 ∧
    (step transit m).stopA_name = m.stopA_name ∧
    ∃ tail, (step transit m).cout = m.cout ++ "Enter your current location:" :: tail := by
  unfold step
  rw [h]
  simp only
  split <;> simp_all

theorem step_halted (transit : TransitOps) (m : Menu) (h : m.pc = .halted) :
    step transit m = m := by
  unfold step
  rw [h]

/-- Lines that fail `stopExists` are read and rejected one per pass at the destination prompt. -/
theorem run_rejected_destination (transit : TransitOps) (bad : List String) :
    ∀ (m : Menu) (l : String) (rest : List String), m.pc = .askDestination →
      m.cin.good = true → m.cin.lines = bad ++ l :: rest →
      (∀ x ∈ bad, transit.stopExists x = false) →
      (run transit bad.length m).pc = .askDestination ∧
      (run transit bad.length m).cin.good = true ∧
      (run transit bad.length m).cin.lines = l :: rest ∧
      (run transit bad.length m).calls = m.calls := by
  induction bad with
  | nil => intro m l rest hpc hg hl _; exact ⟨hpc, hg, hl, rfl⟩
  | cons x bad ih =>
    intro m l rest hpc hg hl hbad
    have hx : transit.stopExists x = false := hbad x (List.mem_cons_self _ _)
    have hget := getline_of_good m.stopA_name x (bad ++ l :: rest) hg hl
    obtain ⟨s1, -, s3, -, -⟩ := step_pc_of_askDestination transit m hpc
    rw [hget] at s1 s3
    simp only [hx] at s1
    have hcalls := step_calls_of_ne_search transit m (by rw [hpc]; decide)
    have := ih (step transit m) l rest (by simpa using s1) (by rw [s3]; simp) (by rw [s3])
      (fun y hy => hbad y (List.mem_cons_of_mem _ hy))
    simp only [List.length_cons, run]
    rw [← hcalls]
    exact this

/-- Lines that fail `stopExists` are read and rejected one per pass at the location prompt. -/
theorem run_rejected_location (transit : TransitOps) (bad : List String) :
    ∀ (m : Menu) (l : String) (rest : List String), m.pc = .askLocation →
      m.cin.good = true → m.cin.lines = bad ++ l :: rest →
      (∀ x ∈ bad, transit.stopExists x = false) →
      (run transit bad.length m).pc = .askLocation ∧
      (run transit bad.length m).cin.good = true ∧
      (run transit bad.length m).cin.lines = l :: rest ∧
      (run transit bad.length m).calls = m.calls ∧
      (run transit bad.length m).stopA_name = m.stopA_name := by
  induction bad with
  | nil => intro m l rest hpc hg hl _; exact ⟨hpc, hg, hl, rfl, rfl⟩
  | cons x bad ih =>
    intro m l rest hpc hg hl hbad
    have hx : transit.stopExists x = false := hbad x (List.mem_cons_self _ _)
    have hget := getline_of_good m.stopB_name x (bad ++ l :: rest) hg hl
    obtain ⟨s1, -, s3, s4, -⟩ := step_pc_of_askLocation transit m hpc
    rw [hget] at s1 s3
    simp only [hx] at s1
    have hcalls := step_calls_of_ne_search transit m (by rw [hpc]; decide)
    have := ih (step transit m) l rest (by simpa using s1) (by rw [s3]; simp) (by rw [s3])
      (fun y hy => hbad y (List.mem_cons_of_mem _ hy))
    simp only [List.length_cons, run]
    rw [← hcalls, ← s4]
    exact this

/-- A whole round: rejected lines, an accepted destination line, rejected lines, an accepted
location line, and the answer to the exit question. -/
theorem run_round (transit : TransitOps) (m : Menu) (bad1 bad2 rest : List String)
    (a b x : String) (hpc : m.pc = .askDestination) (hg : m.cin.good = true)
    (hl : m.cin.lines = bad1 ++ a :: (bad2 ++ b :: x :: rest))
    (h1 : ∀ l ∈ bad1, transit.stopExists l = false) (ha : transit.stopExists a = true)
    (h2 : ∀ l ∈ bad2, transit.stopExists l = false) (hb : transit.stopExists b = true) :
    (run transit (bad1.length + 1 + bad2.length + 1 + 1 + 1) m).pc
      = (if x = "y" then Pc.halted else Pc.askDestination) ∧
    (run transit (bad1.length + 1 + bad2.length + 1 + 1 + 1) m).calls
      = m.calls ++ roundCalls a b ∧
    (run transit (bad1.length + 1 + bad2.length + 1 + 1 + 1) m).cin.lines = rest ∧
    (run transit (bad1.length + 1 + bad2.length + 1 + 1 + 1) m).exit = x := by
  obtain ⟨p1, g1, l1, c1⟩ := run_rejected_destination transit bad1 m a _ hpc hg hl h1
  set m1 := run transit bad1.length m with hm1
  -- the destination line is accepted
  obtain ⟨s1, s2, s3, -, -⟩ := step_pc_of_askDestination transit m1 p1
  rw [getline_of_good m1.stopA_name a _ g1 l1] at s1 s2 s3
  simp only [ha, if_true] at s1
  set m2 := step transit m1 with hm2
  obtain ⟨p3, g3, l3, c3, a3⟩ := run_rejected_location transit bad2 m2 b (x :: rest) s1
    (by rw [s3]; simp) (by rw [s3]) h2
  set m3 := run transit bad2.length m2 with hm3
  -- the location line is accepted
  obtain ⟨t1, t2, t3, t4, -⟩ := step_pc_of_askLocation transit m3 p3
  rw [getline_of_good m3.stopB_name b _ g3 l3] at t1 t2 t3
  simp only [hb, if_true] at t1
  set m4 := step transit m3 with hm4
  -- both searches run
  have hs := step_search transit m4 t1
  set m5 := step transit m4 with hm5
  have p5 : m5.pc = .askExit := by rw [hs]
  have c5 : m5.calls = m.calls ++ roundCalls a b := by
    rw [hs]
    simp only
    rw [t4, t2, a3, s2, step_calls_of_ne_search transit m3 (by rw [p3]; decide), c3,
      step_calls_of_ne_search transit m1 (by rw [p1]; decide), c1]
  have g5 : m5.cin = { m3.cin with lines := x :: rest, good := true } := by
    rw [hs]; simp only; rw [t3]; simp
  -- the exit question
  obtain ⟨u1, u2, u3⟩ := step_askExit_pc transit m5 p5
  rw [getline_of_good m5.exit x rest (by rw [g5]) (by rw [g5])] at u1 u2 u3
  have hrun : run transit (bad1.length + 1 + bad2.length + 1 + 1 + 1) m = step transit m5 := by
    rw [run_succ_last, run_succ_last, run_succ_last, run_add, run_succ_last]
  rw [hrun]
  refine ⟨u1, ?_, by rw [u3], u2⟩
  rw [step_calls_of_ne_search transit m5 (by rw [p5]; decide), c5]

theorem callsTo_roundCalls (x : Algorithm) (a b : String) (calls : List SearchCall) :
    callsTo x (calls ++ roundCalls a b) = callsTo x calls + 1 := by
  cases x <;> simp [callsTo, roundCalls, List.countP_cons]

/-- Searches made so far, counted against the passes made at the search and exit points. -/
theorem calls_counted (transit : TransitOps) (n : Nat) (m : Menu) (hm : m.calls = [])
    (hpc : m.pc = .askDestination) :
    callsTo .aStar (run transit n m).calls = visits transit .search n m ∧
    callsTo .dijkstra (run transit n m).calls = visits transit .search n m ∧
    visits transit .search n m
      = visits transit .askExit n m + (if (run transit n m).pc = .askExit then 1 else 0) := by
  induction n with
  | zero => simp [run, visits, hm, hpc, callsTo]
  | succ n ih =>
    obtain ⟨i1, i2, i3⟩ := ih
    rw [visits_succ_last, visits_succ_last, run_succ_last]
    generalize run transit n m = s at i1 i2 i3 ⊢
    rcases hs : s.pc with _ | _ | _ | _ | _
    · obtain ⟨p, -⟩ := step_pc_of_askDestination transit s hs
      rw [step_calls_of_ne_search transit s (by rw [hs]; decide), p]
      rw [hs] at i3
      simp only [reduceCtorEq, if_false] at i3 ⊢
      refine ⟨i1, i2, ?_⟩
      split <;> simp [i3]
    · obtain ⟨p, -⟩ := step_pc_of_askLocation transit s hs
      rw [step_calls_of_ne_search transit s (by rw [hs]; decide), p]
      rw [hs] at i3
      simp only [reduceCtorEq, if_false] at i3 ⊢
      refine ⟨i1, i2, ?_⟩
      split <;> simp [i3]
    · rw [step_search transit s hs]
      rw [hs] at i3
      simp only [reduceCtorEq, if_false, if_true] at i3 ⊢
      rw [callsTo_roundCalls, callsTo_roundCalls]
      omega
    · obtain ⟨p, -⟩ := step_askExit_pc transit s hs
      rw [step_calls_of_ne_search transit s (by rw [hs]; decide), p]
      rw [hs] at i3
      simp only [reduceCtorEq, if_false, if_true] at i3 ⊢
      refine ⟨i1, i2, ?_⟩
      split <;> simp [i3]
    · rw [step_halted transit s hs]
      rw [hs] at i3 ⊢
      simp only [reduceCtorEq, if_false] at i3 ⊢
      exact ⟨i1, i2, by omega⟩

/-- C4: every search the menu loop invokes, on any input and after any number of passes, is
given two names for which `stopExists` was true; at the point of the calls both variables passed
the check made in the same round, and no other control point invokes a search. -/
theorem search_arguments_exist (transit : TransitOps) (input : Cin) (n : Nat) :
    (∀ c ∈ (run transit n (start transit input)).calls,
      transit.stopExists c.first = true ∧ transit.stopExists c.second = true) ∧
    ((run transit n (start transit input)).pc = .search →
      transit.stopExists (run transit n (start transit input)).stopA_name = true ∧
      transit.stopExists (run transit n (start transit input)).stopB_name = true ∧
      (run transit (n + 1) (start transit input)).calls
        = (run transit n (start transit input)).calls
          ++ roundCalls (run transit n (start transit input)).stopA_name
              (run transit n (start transit input)).stopB_name) ∧
    ((run transit n (start transit input)).pc ≠ .search →
      (run transit (n + 1) (start transit input)).calls
        = (run transit n (start transit input)).calls) := by
  have h := checked_run transit n _ (checked_start transit input)
  refine ⟨h.2.2.1, fun hpc => ⟨(h.2.1 hpc).1, (h.2.1 hpc).2, ?_⟩, fun hpc => ?_⟩
  · rw [run_succ_last, step_search transit _ hpc]
  · rw [run_succ_last, step_calls_of_ne_search transit _ hpc]

theorem search_arguments_exist_witness :
    (⟨.aStar, "Wall St", "Times Sq"⟩ : SearchCall)
        ∈ (run sampleOps 3 (start sampleOps (stdin ["Wall St", "Times Sq", "y"]))).calls ∧
      sampleOps.stopExists "Wall St" = true ∧ sampleOps.stopExists "Times Sq" = true :=
  ⟨by decide,
    (search_arguments_exist sampleOps (stdin ["Wall St", "Times Sq", "y"]) 3).1
      ⟨.aStar, "Wall St", "Times Sq"⟩ (by decide)⟩

/-- C7 (what the code does): the line accepted at the prompt "Enter your destination:" is stored
in `stopA_name` and the line accepted at "Enter your current location:" in `stopB_name`, and
both searches are called with `(stopA_name, stopB_name)`: the destination line is the first
argument and the current-location line the second. -/
theorem destination_line_passed_first (transit : TransitOps) (dest loc : String)
    (rest : List String) (hd : transit.stopExists dest = true)
    (hl : transit.stopExists loc = true) :
    (run transit 1 (start transit (stdin (dest :: loc :: rest)))).cout
      = (start transit (stdin (dest :: loc :: rest))).cout ++ ["Enter your destination:"] ∧
    (run transit 1 (start transit (stdin (dest :: loc :: rest)))).stopA_name = dest ∧
    (run transit 2 (start transit (stdin (dest :: loc :: rest)))).cout
      = (start transit (stdin (dest :: loc :: rest))).cout
          ++ ["Enter your destination:", "Enter your current location:"] ∧
    (run transit 2 (start transit (stdin (dest :: loc :: rest)))).stopB_name = loc ∧
    (run transit 3 (start transit (stdin (dest :: loc :: rest)))).calls
      = [⟨.aStar, dest, loc⟩, ⟨.dijkstra, dest, loc⟩] := by
  simp [run, step, start, stdin, getline, hd, hl]

theorem destination_line_passed_first_witness :
    (run sampleOps 3 (start sampleOps (stdin ["Wall St", "Times Sq", "y"]))).calls
      = [⟨.aStar, "Wall St", "Times Sq"⟩, ⟨.dijkstra, "Wall St", "Times Sq"⟩] :=
  (destination_line_passed_first sampleOps "Wall St" "Times Sq" ["y"]
    (by decide) (by decide)).2.2.2.2

/-- C10: the pass at the exit question leaves the loop exactly when the value read into `exit`
is the string "y", and otherwise returns to the destination prompt, which is followed by the
location prompt; the strings "Y", "yes", " y" and "" are not "y". After any number of passes on
any input each search has been invoked once per pass at the search point, and one such pass
precedes every exit question; the loop is only ever left on the answer "y". A round fed
rejected lines, an accepted destination, rejected lines, an accepted location and an answer
runs to the end of the round, invoking exactly the two searches. -/
theorem loop_ends_iff_y (transit : TransitOps) :
    (∀ m : Menu, m.pc = .askExit →
      ((step transit m).pc = .halted ↔ (getline m.cin m.exit).2 = "y") ∧
      ((getline m.cin m.exit).2 ≠ "y" → (step transit m).pc = .askDestination ∧
        (∃ tail, (step transit (step transit m)).cout
          = (step transit m).cout ++ "Enter your destination:" :: tail))) ∧
    ("Y" ≠ "y" ∧ "yes" ≠ "y" ∧ " y" ≠ "y" ∧ "" ≠ "y") ∧
    (∀ (input : Cin) (n : Nat),
      callsTo .aStar (run transit n (start transit input)).calls
        = visits transit .search n (start transit input) ∧
      callsTo .dijkstra (run transit n (start transit input)).calls
        = visits transit .search n (start transit input) ∧
      visits transit .search n (start transit input)
        = visits transit .askExit n (start transit input)
          + (if (run transit n (start transit input)).pc = .askExit then 1 else 0) ∧
      ((run transit n (start transit input)).pc = .halted →
        (run transit n (start transit input)).exit = "y")) ∧
    (∀ (m : Menu) (bad1 bad2 rest : List String) (a b x : String),
      m.pc = .askDestination → m.cin.good = true →
      m.cin.lines = bad1 ++ a :: (bad2 ++ b :: x :: rest) →
      (∀ l ∈ bad1, transit.stopExists l = false) → transit.stopExists a = true →
      (∀ l ∈ bad2, transit.stopExists l = false) → transit.stopExists b = true →
      (run transit (bad1.length + 1 + bad2.length + 1 + 1 + 1) m).pc
        = (if x = "y" then Pc.halted else Pc.askDestination) ∧
      (run transit (bad1.length + 1 + bad2.length + 1 + 1 + 1) m).calls
        = m.calls ++ roundCalls a b ∧
      (run transit (bad1.length + 1 + bad2.length + 1 + 1 + 1) m).cin.lines = rest ∧
      (run transit (bad1.length + 1 + bad2.length + 1 + 1 + 1) m).exit = x) := by
  refine ⟨fun m hpc => ?_, by decide, fun input n => ?_, ?_⟩
  · obtain ⟨p, -, -⟩ := step_askExit_pc transit m hpc
    refine ⟨?_, fun hne => ?_⟩
    · rw [p]; split <;> simp_all
    · have hp : (step transit m).pc = .askDestination := by rw [p, if_neg hne]
      exact ⟨hp, (step_pc_of_askDestination transit _ hp).2.2.2.2⟩
  · obtain ⟨c1, c2, c3⟩ := calls_counted transit n (start transit input) rfl rfl
    exact ⟨c1, c2, c3, (checked_run transit n _ (checked_start transit input)).2.2.2⟩
  · intro m bad1 bad2 rest a b x hpc hg hl h1 ha h2 hb
    exact run_round transit m bad1 bad2 rest a b x hpc hg hl h1 ha h2 hb

theorem loop_ends_iff_y_witness :
    (run sampleOps 10 (start sampleOps
        (stdin ["Bronx", "Wall St", "Times Sq", "Y", "Times Sq", "", "Wall St", "y"]))).pc
      = .halted ∧
    (run sampleOps 10 (start sampleOps
        (stdin ["Bronx", "Wall St", "Times Sq", "Y", "Times Sq", "", "Wall St", "y"]))).calls
      = roundCalls "Wall St" "Times Sq" ++ roundCalls "Times Sq" "Wall St" := by
  obtain ⟨p1, c1, l1, -⟩ := (loop_ends_iff_y sampleOps).2.2.2
    (start sampleOps (stdin ["Bronx", "Wall St", "Times Sq", "Y", "Times Sq", "", "Wall St", "y"]))
    ["Bronx"] [] ["Times Sq", "", "Wall St", "y"] "Wall St" "Times Sq" "Y"
    rfl rfl rfl (by decide) (by decide) (by decide) (by decide)
  obtain ⟨p2, c2, -, -⟩ := (loop_ends_iff_y sampleOps).2.2.2 _
    [] [""] [] "Times Sq" "Wall St" "y"
    p1 (by decide) l1 (by decide) (by decide) (by decide) (by decide)
  rw [← run_add] at p2 c2
  rw [c1] at c2
  exact ⟨p2, c2⟩

/-! ## Route graph -/

theorem lookup_cons_eq {β : Type} (x k : String) (v : β) (l : List (String × β)) :
    List.lookup x ((k, v) :: l) = if x = k then some v else List.lookup x l := by
  by_cases h : x = k
  · subst h; simp [List.lookup]
  · have : (x == k) = false := by simpa using h
    simp [List.lookup, this, h]

theorem lookup_mapSet_self {β : Type} (k : String) (v : β) (m : List (String × β)) :
    (mapSet k v m).lookup k = some v := by
  induction m with
  | nil => simp [mapSet, List.lookup]
  | cons b rest ih =>
    obtain ⟨k2, v2⟩ := b
    unfold mapSet
    by_cases h : k2 = k
    · rw [if_pos h]; simp [List.lookup]
    · rw [if_neg h]
      have : (k == k2) = false := by simpa using fun e => h e.symm
      simp [List.lookup, this, ih]

theorem mapSet_mapSet {β : Type} (k : String) (v v2 : β) (m : List (String × β)) :
    mapSet k v2 (mapSet k v m) = mapSet k v2 m := by
  induction m with
  | nil => simp [mapSet]
  | cons b rest ih =>
    obtain ⟨k3, v3⟩ := b
    by_cases h : k3 = k
    · simp [mapSet, h]
    · simp [mapSet, h, ih]

theorem mem_setInsert (e x : Edge) (s : List Edge) : x ∈ setInsert e s ↔ x = e ∨ x ∈ s := by
  unfold setInsert
  split
  · next h =>
    constructor
    · exact Or.inr
    · rintro (rfl | hx)
      · exact h
      · exact hx
  · rw [List.mem_orderedInsert]

theorem setInsert_of_not_mem (e : Edge) (s : List Edge) (h : e ∉ s) :
    setInsert e s = List.orderedInsert edgeLe e s := by
  unfold setInsert
  rw [if_neg h]

theorem filter_orderedInsert_of_not (p : Edge → Bool) (e : Edge) (hp : p e = false) :
    ∀ s : List Edge, (∀ x ∈ s, p x = true) →
      (List.orderedInsert edgeLe e s).filter p = s := by
  intro s
  induction s with
  | nil => intro _; simp [hp]
  | cons b l ih =>
    intro hall
    have hb : p b = true := hall b (List.mem_cons_self _ _)
    have hl : ∀ x ∈ l, p x = true := fun x hx => hall x (List.mem_cons_of_mem _ hx)
    rw [List.orderedInsert]
    split
    · rw [List.filter_cons, hp]
      simp only [Bool.false_eq_true, if_false]
      exact List.filter_eq_self.mpr hall
    · rw [List.filter_cons, hb, if_pos rfl, ih hl]

theorem countP_setInsert (p : Edge → Bool) (e : Edge) (s : List Edge) (h : e ∉ s) :
    (setInsert e s).countP p = s.countP p + (if p e = true then 1 else 0) := by
  rw [setInsert_of_not_mem e s h, (List.perm_orderedInsert edgeLe e s).countP_eq,
    List.countP_cons]

theorem length_edgesTo (t : Transit) (fromId toId : String) :
    (edgesTo t fromId toId).length = (t.getAdjacent fromId).countP (fun e => e.1 = toId) := by
  unfold edgesTo
  rw [List.countP_eq_length_filter]

/-- Inserting the same edge again changes nothing, under either policy. -/
theorem insertEdge_insertEdge (policy : DuplicatePolicy) (e : Edge) (s : List Edge) :
    insertEdge policy e (insertEdge policy e s) = insertEdge policy e s := by
  cases policy with
  | lastWriteWins =>
    simp only [insertEdge]
    have hnot : e ∉ s.filter (fun x => x.1 ≠ e.1) := by
      intro h
      have := (List.mem_filter.mp h).2
      simp at this
    have hall : ∀ x ∈ s.filter (fun x => x.1 ≠ e.1),
        (fun x : Edge => decide (x.1 ≠ e.1)) x = true :=
      fun x hx => (List.mem_filter.mp hx).2
    rw [setInsert_of_not_mem e _ hnot,
      filter_orderedInsert_of_not (fun x : Edge => decide (x.1 ≠ e.1)) e (by simp) _ hall,
      setInsert_of_not_mem e _ hnot]
  | ignore =>
    simp only [insertEdge]
    by_cases h : s.any (fun x => x.1 = e.1) = true
    · rw [if_pos h, if_pos h]
    · rw [if_neg h]
      have : (setInsert e s).any (fun x => x.1 = e.1) = true := by
        rw [List.any_eq_true]
        exact ⟨e, (mem_setInsert e e s).mpr (Or.inl rfl), by simp⟩
      rw [if_pos this]

/-- After an insertion the set holds at least one edge to the destination, and exactly one when
it held at most one before or the policy is to update. -/
theorem countP_insertEdge (policy : DuplicatePolicy) (e : Edge) (s : List Edge)
    (hinv : policy = .ignore → s.countP (fun x => x.1 = e.1) ≤ 1) :
    (insertEdge policy e s).countP (fun x => x.1 = e.1) = 1 := by
  cases policy with
  | lastWriteWins =>
    simp only [insertEdge]
    have hnot : e ∉ s.filter (fun x => x.1 ≠ e.1) := by
      intro h
      have := (List.mem_filter.mp h).2
      simp at this
    rw [countP_setInsert _ e _ hnot]
    have h0 : (s.filter (fun x => x.1 ≠ e.1)).countP (fun x => x.1 = e.1) = 0 := by
      rw [List.countP_eq_zero]
      intro x hx
      have := (List.mem_filter.mp hx).2
      simpa using this
    rw [h0]
    simp
  | ignore =>
    simp only [insertEdge]
    by_cases h : s.any (fun x => x.1 = e.1) = true
    · rw [if_pos h]
      have hle := hinv rfl
      have hpos : 0 < s.countP (fun x => x.1 = e.1) := by
        rw [List.countP_pos_iff]
        obtain ⟨x, hx, hp⟩ := List.any_eq_true.mp h
        exact ⟨x, hx, hp⟩
      omega
    · rw [if_neg h]
      have hnone : ∀ x ∈ s, ¬ (decide (x.1 = e.1) = true) := by
        intro x hx hp
        exact h (List.any_eq_true.mpr ⟨x, hx, hp⟩)
      have hnot : e ∉ s := fun he => hnone e he (by simp)
      rw [countP_setInsert _ e _ hnot]
      have h0 : s.countP (fun x => x.1 = e.1) = 0 := by
        rw [List.countP_eq_zero]
        exact hnone
      rw [h0]
      simp

theorem insertRoute_ok (t : Transit) (policy : DuplicatePolicy) (fromId toId : String) (w : Int)
    (hw : 0 ≤ w) :
    t.insertRoute policy fromId toId w
      = .ok { t with routes := mapSet fromId
                        (insertEdge policy (toId, w) (t.getAdjacent fromId)) t.routes } := by
  unfold Transit.insertRoute
  rw [if_neg (by omega)]

theorem getAdjacent_mapSet (routes : List (String × List Edge))
    (names ids : List (String × String)) (fromId : String) (s : List Edge) :
    Transit.getAdjacent ⟨mapSet fromId s routes, names, ids⟩ fromId = s := by
  simp [Transit.getAdjacent, lookup_mapSet_self]

/-- C6: inserting an edge a second time with the same weight leaves the network as it is after
the first insertion, whichever policy for repeated endpoints is in force: the same adjacency
set of `fromId`, of the same size. -/
theorem insertRoute_idempotent (t : Transit) (policy : DuplicatePolicy) (fromId toId : String)
    (w : Int) (hw : 0 ≤ w) :
    ∃ t1 t2, t.insertRoute policy fromId toId w = .ok t1 ∧
      t1.insertRoute policy fromId toId w = .ok t2 ∧
      t2 = t1 ∧ t2.getAdjacent fromId = t1.getAdjacent fromId ∧
      (t2.getAdjacent fromId).length = (t1.getAdjacent fromId).length := by
  refine ⟨_, _, insertRoute_ok t policy fromId toId w hw,
    insertRoute_ok _ policy fromId toId w hw, ?_⟩
  have : Transit.mk
      (mapSet fromId (insertEdge policy (toId, w) (Transit.getAdjacent
        { t with routes := mapSet fromId (insertEdge policy (toId, w) (t.getAdjacent fromId))
                             t.routes }
        fromId)) (mapSet fromId (insertEdge policy (toId, w) (t.getAdjacent fromId)) t.routes))
      t.stopNames t.stopIDs
      = { t with routes := mapSet fromId (insertEdge policy (toId, w) (t.getAdjacent fromId))
                                t.routes } := by
    rw [getAdjacent_mapSet, insertEdge_insertEdge, mapSet_mapSet]
  exact ⟨this, by rw [this], by rw [this]⟩

theorem insertRoute_idempotent_witness :
    ∃ t1 t2, islands.insertRoute .lastWriteWins "A" "B" 60 = .ok t1 ∧
      t1.insertRoute .lastWriteWins "A" "B" 60 = .ok t2 ∧
      t2 = t1 ∧ t2.getAdjacent "A" = t1.getAdjacent "A" ∧
      (t2.getAdjacent "A").length = (t1.getAdjacent "A").length :=
  insertRoute_idempotent islands .lastWriteWins "A" "B" 60 (by decide)

/-- C5: after inserting the route `(fromId, toId, w1)` and then `(fromId, toId, w2)`, with any
non-negative weights, equal or not, the adjacency set of `fromId` (a set of pairs
(destination, time)) holds exactly one edge whose destination is `toId`. This is so under either
policy for repeated endpoints: when the weight is updated, on every graph, and the edge left is
`(toId, w2)`; when the repetition is ignored, on every graph that had at most one edge from
`fromId` to `toId` to begin with. -/
theorem insertRoute_twice_one_edge (t : Transit) (policy : DuplicatePolicy)
    (fromId toId : String) (w1 w2 : Int) (h1 : 0 ≤ w1) (h2 : 0 ≤ w2)
    (hinv : policy = .ignore → (edgesTo t fromId toId).length ≤ 1) :
    ∃ t1 t2, t.insertRoute policy fromId toId w1 = .ok t1 ∧
      t1.insertRoute policy fromId toId w2 = .ok t2 ∧
      (edgesTo t2 fromId toId).length = 1 ∧
      (policy = .lastWriteWins → edgesTo t2 fromId toId = [(toId, w2)]) := by
  refine ⟨_, _, insertRoute_ok t policy fromId toId w1 h1,
    insertRoute_ok _ policy fromId toId w2 h2, ?_⟩
  have hlen : (edgesTo (Transit.mk (mapSet fromId (insertEdge policy (toId, w2)
      (Transit.getAdjacent
        { t with routes := mapSet fromId (insertEdge policy (toId, w1) (t.getAdjacent fromId))
                             t.routes } fromId))
      (mapSet fromId (insertEdge policy (toId, w1) (t.getAdjacent fromId)) t.routes))
      t.stopNames t.stopIDs) fromId toId).length = 1 := by
    rw [length_edgesTo, getAdjacent_mapSet, getAdjacent_mapSet]
    refine countP_insertEdge policy (toId, w2) _ (fun hp => ?_)
    have := countP_insertEdge policy (toId, w1) (t.getAdjacent fromId)
      (fun hp2 => by rw [← length_edgesTo]; exact hinv hp2)
    exact le_of_eq this
  refine ⟨hlen, fun hp => ?_⟩
  subst hp
  have hmem : (toId, w2) ∈ edgesTo (Transit.mk (mapSet fromId (insertEdge .lastWriteWins (toId, w2)
      (Transit.getAdjacent
        { t with routes := mapSet fromId
                             (insertEdge .lastWriteWins (toId, w1) (t.getAdjacent fromId))
                             t.routes }
        fromId))
      (mapSet fromId (insertEdge .lastWriteWins (toId, w1) (t.getAdjacent fromId)) t.routes))
      t.stopNames t.stopIDs) fromId toId := by
    unfold edgesTo
    rw [getAdjacent_mapSet, List.mem_filter]
    exact ⟨(mem_setInsert _ _ _).mpr (Or.inl rfl), by simp⟩
  obtain ⟨x, hx⟩ := List.length_eq_one.mp hlen
  rw [hx] at hmem ⊢
  rw [List.mem_singleton] at hmem
  rw [hmem]

theorem insertRoute_twice_one_edge_witness :
    ∃ t1 t2, abcNetwork.insertRoute .ignore "A" "B" 60 = .ok t1 ∧
      t1.insertRoute .ignore "A" "B" 90 = .ok t2 ∧
      (edgesTo t2 "A" "B").length = 1 ∧
      (DuplicatePolicy.ignore = .lastWriteWins → edgesTo t2 "A" "B" = [("B", 90)]) :=
  insertRoute_twice_one_edge abcNetwork .ignore "A" "B" 60 90 (by decide) (by decide)
    (fun _ => by decide)

theorem lookup_mapSet_of_ne {β : Type} (k k2 : String) (v : β) (m : List (String × β))
    (h : k2 ≠ k) : (mapSet k v m).lookup k2 = m.lookup k2 := by
  induction m with
  | nil => simp [mapSet, lookup_cons_eq, h]
  | cons b rest ih =>
    obtain ⟨k3, v3⟩ := b
    unfold mapSet
    by_cases h3 : k3 = k
    · subst h3
      rw [if_pos rfl, lookup_cons_eq, lookup_cons_eq, if_neg h, if_neg h]
    · rw [if_neg h3, lookup_cons_eq, lookup_cons_eq, ih]

theorem countP_insertEdge_other (policy : DuplicatePolicy) (e : Edge) (s : List Edge)
    (d : String) (hd : d ≠ e.1) :
    (insertEdge policy e s).countP (fun x => x.1 = d) = s.countP (fun x => x.1 = d) := by
  have hpe : (if (fun x : Edge => decide (x.1 = d)) e = true then 1 else 0) = 0 := by
    have hne : ¬ e.1 = d := fun h => hd h.symm
    simp [hne]
  cases policy with
  | lastWriteWins =>
    simp only [insertEdge]
    have hnot : e ∉ s.filter (fun x => x.1 ≠ e.1) := by
      intro h
      have := (List.mem_filter.mp h).2
      simp at this
    rw [countP_setInsert _ e _ hnot, hpe, Nat.add_zero, List.countP_filter]
    apply List.countP_congr
    intro x _
    simp only [Bool.and_eq_true, decide_eq_true_eq, ne_eq, decide_not, Bool.not_eq_true']
    constructor
    · exact fun h => h.1
    · intro h
      refine ⟨h, ?_⟩
      simp only [decide_eq_false_iff_not]
      intro h2
      exact hd (h.symm.trans h2)
  | ignore =>
    simp only [insertEdge]
    by_cases h : s.any (fun x => x.1 = e.1) = true
    · rw [if_pos h]
    · rw [if_neg h]
      have hnot : e ∉ s := by
        intro he
        exact h (List.any_eq_true.mpr ⟨e, he, by simp⟩)
      rw [countP_setInsert _ e _ hnot, hpe, Nat.add_zero]

/-- The network without routes has at most one edge between any two stops, and `insertRoute`
keeps it so under either policy: every graph built by insertions satisfies the invariant. -/
theorem insertRoute_keeps_one_edge :
    (∀ names ids, OneEdgePerDestination (Transit.mk [] names ids)) ∧
    ∀ (t t1 : Transit) (policy : DuplicatePolicy) (fromId toId : String) (w : Int),
      OneEdgePerDestination t → t.insertRoute policy fromId toId w = .ok t1 →
      OneEdgePerDestination t1 := by
  constructor
  · intro names ids f d
    simp [edgesTo, Transit.getAdjacent]
  · intro t t1 policy fromId toId w hinv hins f d
    unfold Transit.insertRoute at hins
    split at hins
    · cases hins
    · simp only [Except.ok.injEq] at hins
      subst hins
      rw [length_edgesTo]
      by_cases hf : f = fromId
      · subst hf
        rw [getAdjacent_mapSet]
        by_cases hdd : d = toId
        · subst hdd
          exact le_of_eq (countP_insertEdge policy (d, w) _
            (fun _ => by rw [← length_edgesTo]; exact hinv f d))
        · rw [countP_insertEdge_other policy (toId, w) _ d hdd, ← length_edgesTo]
          exact hinv f d
      · have : Transit.getAdjacent
            { t with routes := mapSet fromId
                       (insertEdge policy (toId, w) (t.getAdjacent fromId)) t.routes } f
            = t.getAdjacent f := by
          simp only [Transit.getAdjacent]
          rw [lookup_mapSet_of_ne fromId f _ _ hf]
        rw [this, ← length_edgesTo]
        exact hinv f d

/-! ## The scan -/

theorem minEntry_eq_none (key : Int × String → Int) (l : List (Int × String)) :
    minEntry key l = none ↔ l = [] := by
  cases l with
  | nil => simp [minEntry]
  | cons e es =>
    simp only [minEntry, reduceCtorEq, iff_false]
    cases minEntry key es with
    | none => simp
    | some m => simp only; split <;> simp

theorem minEntry_mem (key : Int × String → Int) (l : List (Int × String)) (m : Int × String)
    (h : minEntry key l = some m) : m ∈ l := by
  induction l generalizing m with
  | nil => simp [minEntry] at h
  | cons e es ih =>
    simp only [minEntry] at h
    cases hm : minEntry key es with
    | none =>
      rw [hm] at h
      simp only [Option.some.injEq] at h
      subst h
      exact List.mem_cons_self _ _
    | some m2 =>
      rw [hm] at h
      simp only at h
      split at h
      · simp only [Option.some.injEq] at h
        subst h
        exact List.mem_cons_self _ _
      · simp only [Option.some.injEq] at h
        subst h
        exact List.mem_cons_of_mem _ (ih _ hm)

theorem minEntry_le (key : Int × String → Int) (l : List (Int × String)) (m : Int × String)
    (h : minEntry key l = some m) : ∀ e ∈ l, key m ≤ key e := by
  induction l generalizing m with
  | nil => simp [minEntry] at h
  | cons e es ih =>
    simp only [minEntry] at h
    cases hm : minEntry key es with
    | none =>
      rw [hm] at h
      simp only [Option.some.injEq] at h
      subst h
      have : es = [] := (minEntry_eq_none key es).mp hm
      subst this
      intro x hx
      simp only [List.mem_singleton] at hx
      subst hx
      exact le_refl _
    | some m2 =>
      rw [hm] at h
      simp only at h
      have ih2 := ih m2 hm
      split at h
      · next hlt =>
        simp only [Option.some.injEq] at h
        subst h
        intro x hx
        rcases List.mem_cons.mp hx with rfl | hx
        · exact le_refl _
        · have := ih2 x hx
          rcases hlt with hlt | ⟨heq, -⟩ <;> omega
      · next hge =>
        simp only [Option.some.injEq] at h
        subst h
        intro x hx
        rcases List.mem_cons.mp hx with rfl | hx
        · by_contra hc
          exact hge (Or.inl (by omega))
        · exact ih2 x hx

theorem relax_closed (u : String) (c : Int) (st : SearchState) (e : Edge) :
    (relax u c st e).closed = st.closed := by
  unfold relax
  split
  · rfl
  · split
    · split <;> rfl
    · rfl

theorem relax_frontier_length (u : String) (c : Int) (st : SearchState) (e : Edge) :
    (relax u c st e).frontier.length ≤ st.frontier.length + 1 := by
  unfold relax
  split
  · omega
  · split
    · split
      · simp
      · omega
    · simp

theorem costLe_refl (st : SearchState) : CostLe st st :=
  fun _ cx h => ⟨cx, h, le_refl _, fun _ => rfl⟩

theorem costLe_trans {a b c : SearchState} (hab : CostLe a b) (hbc : CostLe b c)
    (hcl : a.closed = b.closed) : CostLe a c := by
  intro x cx h
  obtain ⟨c1, h1, l1, e1⟩ := hab x cx h
  obtain ⟨c2, h2, l2, e2⟩ := hbc x c1 h1
  refine ⟨c2, h2, le_trans l2 l1, fun hx => ?_⟩
  rw [e2 (hcl ▸ hx), e1 hx]

theorem relax_costLe (u : String) (c : Int) (st : SearchState) (e : Edge) :
    CostLe st (relax u c st e) := by
  unfold relax
  split
  · exact costLe_refl st
  · next hcl =>
    split
    · next old hold =>
      split
      · next hlt =>
        intro x cx hx
        simp only [lookup_cons_eq]
        by_cases hxe : x = e.1
        · subst hxe
          rw [hold] at hx
          simp only [Option.some.injEq] at hx
          subst hx
          exact ⟨c + e.2, by simp, by omega, fun h => absurd h hcl⟩
        · exact ⟨cx, by simp [hxe, hx], le_refl _, fun _ => rfl⟩
      · exact costLe_refl st
    · next hnone =>
      intro x cx hx
      simp only [lookup_cons_eq]
      by_cases hxe : x = e.1
      · subst hxe
        rw [hnone] at hx
        cases hx
      · exact ⟨cx, by simp [hxe, hx], le_refl _, fun _ => rfl⟩

theorem relax_relaxed (u : String) (c : Int) (st : SearchState) (e : Edge) :
    Relaxed (relax u c st e) c e := by
  unfold relax
  split
  · next hcl => exact Or.inl hcl
  · split
    · next old hold =>
      split
      · exact Or.inr ⟨c + e.2, by simp [lookup_cons_eq], le_refl _⟩
      · next hge => exact Or.inr ⟨old, hold, by omega⟩
    · exact Or.inr ⟨c + e.2, by simp [lookup_cons_eq], le_refl _⟩

theorem core_push {t : Transit} {source destination u : String} {c : Int} {st : SearchState}
    {e : Edge} (hc : Core t source destination st) (hw : Walk t source u c)
    (he : e ∈ t.getAdjacent u)
    (hlow : ∀ old, st.cost.lookup e.1 = some old → c + e.2 < old) :
    Core t source destination
      { st with frontier := (c + e.2, e.1) :: st.frontier, cost := (e.1, c + e.2) :: st.cost,
                pred := (e.1, u) :: st.pred } := by
  refine ⟨?_, ?_, ?_, ?_, hc.dest_open⟩
  · intro x hx
    rcases List.mem_cons.mp hx with rfl | hx
    · exact Walk.snoc hw he
    · exact hc.sound x hx
  · rcases hc.source_open with h | h
    · exact Or.inl h
    · exact Or.inr (List.mem_cons_of_mem _ h)
  · intro x hx
    simp only [lookup_cons_eq]
    rcases List.mem_cons.mp hx with rfl | hx
    · exact ⟨c + e.2, by simp, le_refl _⟩
    · obtain ⟨c0, h0, l0⟩ := hc.known x hx
      by_cases hxe : x.2 = e.1
      · refine ⟨c + e.2, by simp [hxe], ?_⟩
        have := hlow c0 (hxe ▸ h0)
        omega
      · exact ⟨c0, by simp [hxe, h0], l0⟩
  · intro v cv hv hcl
    simp only [lookup_cons_eq] at hv
    by_cases hve : v = e.1
    · rw [if_pos hve] at hv
      simp only [Option.some.injEq] at hv
      subst hv
      rw [hve]
      exact List.mem_cons_self _ _
    · rw [if_neg hve] at hv
      exact List.mem_cons_of_mem _ (hc.queued v cv hv hcl)

theorem relax_core {t : Transit} {source destination u : String} {c : Int} {st : SearchState}
    {e : Edge} (hc : Core t source destination st) (hw : Walk t source u c)
    (he : e ∈ t.getAdjacent u) : Core t source destination (relax u c st e) := by
  unfold relax
  split
  · exact hc
  · split
    · next old hold =>
      split
      · next hlt =>
        refine core_push hc hw he (fun o ho => ?_)
        rw [hold] at ho
        simp only [Option.some.injEq] at ho
        omega
      · exact hc
    · next hnone =>
      refine core_push hc hw he (fun o ho => ?_)
      rw [hnone] at ho
      cases ho

theorem relaxed_mono {st st2 : SearchState} {cx : Int} {e : Edge} (h : Relaxed st cx e)
    (hcl : ∀ x ∈ st.closed, x ∈ st2.closed) (hle : CostLe st st2) : Relaxed st2 cx e := by
  rcases h with h | ⟨cv, hv, hl⟩
  · exact Or.inl (hcl _ h)
  · obtain ⟨cv2, h2, l2, -⟩ := hle _ _ hv
    exact Or.inr ⟨cv2, h2, le_trans l2 hl⟩

theorem settled_mono {t : Transit} {source x : String} {st st2 : SearchState}
    {edges : List Edge} (h : Settled t source st x edges) (hx : x ∈ st.closed)
    (hcl : ∀ x ∈ st.closed, x ∈ st2.closed) (hle : CostLe st st2) :
    Settled t source st2 x edges := by
  obtain ⟨cx, h1, h2, h3⟩ := h
  obtain ⟨cx2, e1, -, e3⟩ := hle _ _ h1
  rw [e3 hx] at e1
  exact ⟨cx, e1, h2, fun e he => relaxed_mono (h3 e he) hcl hle⟩

theorem foldl_relax {t : Transit} {source destination u : String} {c : Int}
    (hw : Walk t source u c) (es : List Edge) :
    ∀ st : SearchState, (∀ e ∈ es, e ∈ t.getAdjacent u) → Core t source destination st →
      (es.foldl (relax u c) st).closed = st.closed ∧
      Core t source destination (es.foldl (relax u c) st) ∧
      CostLe st (es.foldl (relax u c) st) ∧
      (∀ e ∈ es, Relaxed (es.foldl (relax u c) st) c e) ∧
      (es.foldl (relax u c) st).frontier.length ≤ st.frontier.length + es.length := by
  induction es with
  | nil =>
    intro st _ hc
    exact ⟨rfl, hc, costLe_refl st, by simp, by simp⟩
  | cons e es ih =>
    intro st hes hc
    have he := hes e (List.mem_cons_self _ _)
    obtain ⟨i1, i2, i3, i4, i5⟩ := ih (relax u c st e)
      (fun x hx => hes x (List.mem_cons_of_mem _ hx)) (relax_core hc hw he)
    simp only [List.foldl_cons]
    have hcl := relax_closed u c st e
    refine ⟨i1.trans hcl, i2, costLe_trans (relax_costLe u c st e) i3 hcl.symm, ?_, ?_⟩
    · intro x hx
      rcases List.mem_cons.mp hx with rfl | hx
      · exact relaxed_mono (relax_relaxed u c st x) (fun y hy => i1 ▸ hy) i3
      · exact i4 x hx
    · have := relax_frontier_length u c st e
      simp only [List.length_cons]
      omega

/-- Every route from the source to an open stop is matched by a frontier entry of no larger
priority. -/
theorem frontier_below_walk {t : Transit} {h : String → Int} (hcons : Consistent t h)
    {source destination : String} {st : SearchState}
    (hinv : SearchInv t source destination st) {v : String} {c : Int}
    (hw : Walk t source v c) :
    v ∉ st.closed → ∃ e ∈ st.frontier, e.1 + h e.2 ≤ c + h v := by
  induction hw with
  | nil =>
    intro hv
    rcases hinv.1.source_open with hs | hs
    · exact absurd hs hv
    · exact ⟨_, hs, le_refl _⟩
  | @snoc y x c1 w hwy hedge ih =>
    intro hx
    have hstep : h y ≤ w + h x := hcons y (x, w) hedge
    by_cases hy : y ∈ st.closed
    · obtain ⟨cy, -, hopt, hrel⟩ := hinv.2 y hy
      have hcy := hopt c1 hwy
      rcases hrel (x, w) hedge with hcl | ⟨cv, hv, hle⟩
      · exact absurd hcl hx
      · refine ⟨(cv, x), hinv.1.queued x cv hv hx, ?_⟩
        simp only at hle ⊢
        omega
    · obtain ⟨e, he, hle⟩ := ih hy
      exact ⟨e, he, by omega⟩

/-- The popped entry of an open stop carries the least weight of a route to it, and that weight
is the stop's known cost. -/
theorem popped_is_optimal {t : Transit} {h : String → Int} (hcons : Consistent t h)
    {key : Int × String → Int} (hkey : ∀ e, key e = e.1 + h e.2)
    {source destination : String} {st : SearchState}
    (hinv : SearchInv t source destination st) {e : Int × String}
    (hmin : minEntry key st.frontier = some e) (hopen : e.2 ∉ st.closed) :
    Walk t source e.2 e.1 ∧ (∀ c, Walk t source e.2 c → e.1 ≤ c) ∧
      st.cost.lookup e.2 = some e.1 := by
  have hmem := minEntry_mem key _ e hmin
  have hle := minEntry_le key _ e hmin
  refine ⟨hinv.1.sound e hmem, ?_, ?_⟩
  · intro c hw
    obtain ⟨e2, he2, hl⟩ := frontier_below_walk hcons hinv hw hopen
    have := hle e2 he2
    rw [hkey, hkey] at this
    omega
  · obtain ⟨c0, h0, l0⟩ := hinv.1.known e hmem
    have hq := hinv.1.queued e.2 c0 h0 hopen
    have := hle _ hq
    rw [hkey, hkey] at this
    simp only at this
    have : c0 = e.1 := by omega
    rw [h0, this]

theorem stale_inv {t : Transit} {source destination : String} {st : SearchState}
    (hinv : SearchInv t source destination st) {e : Int × String}
    (hcl : e.2 ∈ st.closed) :
    SearchInv t source destination { st with frontier := st.frontier.erase e } := by
  obtain ⟨hc, hs⟩ := hinv
  refine ⟨⟨?_, ?_, ?_, ?_, hc.dest_open⟩, hs⟩
  · intro x hx
    exact hc.sound x (List.mem_of_mem_erase hx)
  · rcases hc.source_open with h | h
    · exact Or.inl h
    · by_cases heq : (0, source) = e
      · left; rw [← heq] at hcl; exact hcl
      · exact Or.inr ((List.mem_erase_of_ne heq).mpr h)
  · intro x hx
    exact hc.known x (List.mem_of_mem_erase hx)
  · intro v c hv hvo
    have := hc.queued v c hv hvo
    refine (List.mem_erase_of_ne ?_).mpr this
    intro heq
    rw [← heq] at hcl
    exact hvo hcl

theorem expand_inv {t : Transit} {source destination : String} {st : SearchState}
    (hinv : SearchInv t source destination st) {e : Int × String}
    (hne : e.2 ≠ destination)
    (hw : Walk t source e.2 e.1) (hopt : ∀ c, Walk t source e.2 c → e.1 ≤ c)
    (hcost : st.cost.lookup e.2 = some e.1) :
    SearchInv t source destination
      (expand t e.2 e.1 { st with frontier := st.frontier.erase e }) := by
  obtain ⟨hc, hs⟩ := hinv
  set st1 : SearchState :=
    { st with frontier := st.frontier.erase e, closed := e.2 :: st.closed } with hst1
  have hc1 : Core t source destination st1 := by
    refine ⟨?_, ?_, ?_, ?_, ?_⟩
    · intro x hx
      exact hc.sound x (List.mem_of_mem_erase hx)
    · rcases hc.source_open with h | h
      · exact Or.inl (List.mem_cons_of_mem _ h)
      · by_cases heq : (0, source) = e
        · left
          have h2 : e.2 = source := by rw [← heq]
          show source ∈ e.2 :: st.closed
          rw [h2]
          exact List.mem_cons_self _ _
        · exact Or.inr ((List.mem_erase_of_ne heq).mpr h)
    · intro x hx
      exact hc.known x (List.mem_of_mem_erase hx)
    · intro v c hv hvo
      have hvo2 : v ∉ st.closed := fun h => hvo (List.mem_cons_of_mem _ h)
      have := hc.queued v c hv hvo2
      refine (List.mem_erase_of_ne ?_).mpr this
      intro heq
      have h2 : e.2 = v := by rw [← heq]
      apply hvo
      show v ∈ e.2 :: st.closed
      rw [h2]
      exact List.mem_cons_self _ _
    · intro h
      rcases List.mem_cons.mp h with h | h
      · exact hne h.symm
      · exact hc.dest_open h
  have h01 : CostLe st st1 := fun x cx hx => ⟨cx, hx, le_refl _, fun _ => rfl⟩
  have hsub01 : ∀ x ∈ st.closed, x ∈ st1.closed := fun x hx => List.mem_cons_of_mem _ hx
  obtain ⟨f1, f2, f3, f4, -⟩ := @foldl_relax t source destination e.2 e.1 hw
    (t.getAdjacent e.2) st1 (fun _ h => h) hc1
  have hexp : expand t e.2 e.1 { st with frontier := st.frontier.erase e }
      = (t.getAdjacent e.2).foldl (relax e.2 e.1) st1 := rfl
  rw [hexp]
  refine ⟨f2, ?_⟩
  intro x hx
  rw [f1] at hx
  have hsub12 : ∀ y ∈ st1.closed, y ∈ ((t.getAdjacent e.2).foldl (relax e.2 e.1) st1).closed :=
    fun y hy => f1 ▸ hy
  by_cases hxe : x = e.2
  · subst hxe
    obtain ⟨c2, l2, -, e2⟩ := f3 e.2 e.1 hcost
    rw [e2 (List.mem_cons_self _ _)] at l2
    exact ⟨e.1, l2, hopt, f4⟩
  · have hxold : x ∈ st.closed := by
      rcases List.mem_cons.mp hx with h | h
      · exact absurd h hxe
      · exact h
    exact settled_mono (settled_mono (hs x hxold) hxold hsub01 h01) hx hsub12 f3

theorem initial_inv (t : Transit) (source destination : String) :
    SearchInv t source destination (initialState source) := by
  refine ⟨⟨?_, ?_, ?_, ?_, ?_⟩, ?_⟩
  · intro e he
    simp only [initialState, List.mem_singleton] at he
    subst he
    exact Walk.nil
  · right; simp [initialState]
  · intro e he
    simp only [initialState, List.mem_singleton] at he
    subst he
    exact ⟨0, by simp [initialState, lookup_cons_eq], le_refl _⟩
  · intro v c hv _
    have hv2 : (if v = source then some (0 : Int) else List.lookup v []) = some c := by
      rw [← lookup_cons_eq]; exact hv
    split at hv2
    · next h =>
      simp only [Option.some.injEq] at hv2
      subst h; subst hv2
      simp [initialState]
    · simp at hv2
  · simp [initialState]
  · intro x hx
    simp [initialState] at hx

/-- What a finished scan returns: a cost is the least weight of a route to the destination, and
the only failure is `NoPathFound`, raised when there is no route. -/
theorem searchLoop_spec {t : Transit} {h : String → Int} (hcons : Consistent t h)
    {key : Int × String → Int} (hkey : ∀ e, key e = e.1 + h e.2)
    {source destination : String} :
    ∀ (fuel : Nat) (st : SearchState), SearchInv t source destination st →
      ∀ r, searchLoop t key destination fuel st = some r →
        (∀ c st2, r = .ok (c, st2) →
          Walk t source destination c ∧ ∀ c2, Walk t source destination c2 → c ≤ c2) ∧
        (∀ err, r = .error err →
          err = .NoPathFound ∧ ∀ c, ¬ Walk t source destination c) := by
  intro fuel
  induction fuel with
  | zero => intro st _ r hr; simp [searchLoop] at hr
  | succ fuel ih =>
    intro st hinv r hr
    unfold searchLoop at hr
    cases hmin : minEntry key st.frontier with
    | none =>
      rw [hmin] at hr
      simp only [Option.some.injEq] at hr
      subst hr
      have hnil : st.frontier = [] := (minEntry_eq_none key _).mp hmin
      constructor
      · intro c st2 hc
        cases hc
      intro err herr
      simp only [Except.error.injEq] at herr
      refine ⟨herr.symm, fun c hw => ?_⟩
      obtain ⟨e, he, -⟩ := frontier_below_walk hcons hinv hw hinv.1.dest_open
      rw [hnil] at he
      cases he
    | some e =>
      rw [hmin] at hr
      simp only at hr
      by_cases hcl : e.2 ∈ st.closed
      · rw [if_pos hcl] at hr
        exact ih _ (stale_inv hinv hcl) r hr
      · rw [if_neg hcl] at hr
        obtain ⟨hw, hopt, hcost⟩ := popped_is_optimal hcons hkey hinv hmin hcl
        by_cases hd : e.2 = destination
        · rw [if_pos hd] at hr
          simp only [Option.some.injEq] at hr
          subst hr
          constructor
          swap
          · intro err herr
            cases herr
          intro c st2 hc
          simp only [Except.ok.injEq, Prod.mk.injEq] at hc
          rw [← hc.1, ← hd]
          exact ⟨hw, hopt⟩
        · rw [if_neg hd] at hr
          exact ih _ (expand_inv hinv hd hw hopt hcost) r hr

/-! ### The scan ends within its bound -/

theorem foldl_relax_closed (u : String) (c : Int) (es : List Edge) :
    ∀ st : SearchState, (es.foldl (relax u c) st).closed = st.closed := by
  induction es with
  | nil => intro st; rfl
  | cons e es ih => intro st; rw [List.foldl_cons, ih, relax_closed]

theorem foldl_relax_length (u : String) (c : Int) (es : List Edge) :
    ∀ st : SearchState,
      (es.foldl (relax u c) st).frontier.length ≤ st.frontier.length + es.length := by
  induction es with
  | nil => intro st; simp
  | cons e es ih =>
    intro st
    rw [List.foldl_cons]
    have h1 := ih (relax u c st e)
    have h2 := relax_frontier_length u c st e
    simp only [List.length_cons]
    omega

theorem sum_filter_close (g : String → Nat) (u : String) (closed : List String)
    (hu : u ∉ closed) (keys : List String) :
    ((keys.filter (fun x => x ∉ u :: closed)).map g).sum + (if u ∈ keys then g u else 0)
      ≤ ((keys.filter (fun x => x ∉ closed)).map g).sum := by
  induction keys with
  | nil => simp
  | cons x keys ih =>
    by_cases hxu : x = u
    · subst hxu
      have h1 : decide (x ∉ x :: closed) = false := by simp
      have h2 : decide (x ∉ closed) = true := by simp [hu]
      rw [List.filter_cons, List.filter_cons, h1, h2, if_pos (List.mem_cons_self x keys)]
      simp only [Bool.false_eq_true, if_false, if_true, List.map_cons, List.sum_cons]
      split at ih <;> omega
    · have h1 : decide (x ∉ u :: closed) = decide (x ∉ closed) := by simp [hxu]
      have h2 : (u ∈ x :: keys) ↔ (u ∈ keys) := by
        constructor
        · intro h
          rcases List.mem_cons.mp h with h | h
          · exact absurd h.symm hxu
          · exact h
        · exact List.mem_cons_of_mem _
      rw [List.filter_cons, List.filter_cons, h1]
      simp only [h2]
      by_cases hxc : decide (x ∉ closed) = true
      · rw [if_pos hxc, if_pos hxc]
        simp only [List.map_cons, List.sum_cons]
        omega
      · rw [if_neg hxc, if_neg hxc]
        exact ih

theorem getAdjacent_eq_nil (t : Transit) (u : String)
    (hu : u ∉ t.routes.map (fun r => r.1)) : t.getAdjacent u = [] := by
  unfold Transit.getAdjacent
  have : t.routes.lookup u = none := by
    rw [List.lookup_eq_none_iff]
    intro p hp
    simp only [bne_iff_ne, ne_eq]
    intro h
    exact hu (List.mem_map.mpr ⟨p, hp, h.symm⟩)
  rw [this]
  rfl

theorem openEdges_close (t : Transit) (u : String) (closed : List String) (hu : u ∉ closed) :
    openEdges t (u :: closed) + (t.getAdjacent u).length ≤ openEdges t closed := by
  have h := sum_filter_close (fun x => (t.getAdjacent x).length) u closed hu
    (t.routes.map (fun r => r.1))
  unfold openEdges
  by_cases hk : u ∈ t.routes.map (fun r => r.1)
  · rw [if_pos hk] at h
    exact h
  · rw [if_neg hk] at h
    rw [getAdjacent_eq_nil t u hk]
    simpa using h

/-- With more iterations allowed than the measure of the state, the scan comes to an end. -/
theorem searchLoop_isSome (t : Transit) (key : Int × String → Int) (destination : String) :
    ∀ (fuel : Nat) (st : SearchState), measure t st < fuel →
      ∃ r, searchLoop t key destination fuel st = some r := by
  intro fuel
  induction fuel with
  | zero => intro st h; omega
  | succ fuel ih =>
    intro st hm
    unfold searchLoop
    cases hmin : minEntry key st.frontier with
    | none => exact ⟨_, rfl⟩
    | some e =>
      simp only
      have hmem := minEntry_mem key _ e hmin
      have hlen : (st.frontier.erase e).length + 1 = st.frontier.length := by
        rw [List.length_erase_of_mem hmem]
        have : 0 < st.frontier.length := List.length_pos_of_mem hmem
        omega
      unfold measure at hm
      by_cases hcl : e.2 ∈ st.closed
      · rw [if_pos hcl]
        apply ih
        unfold measure
        simp only
        omega
      · rw [if_neg hcl]
        by_cases hd : e.2 = destination
        · rw [if_pos hd]; exact ⟨_, rfl⟩
        · rw [if_neg hd]
          apply ih
          unfold measure expand
          rw [foldl_relax_closed]
          have h1 := foldl_relax_length e.2 e.1 (t.getAdjacent e.2)
            { st with frontier := st.frontier.erase e, closed := e.2 :: st.closed }
          have h2 := openEdges_close t e.2 st.closed hcl
          simp only at h1 ⊢
          omega

theorem measure_initial (t : Transit) (source : String) :
    measure t (initialState source) < searchFuel t := by
  unfold measure searchFuel openEdges initialState
  simp only [List.length_singleton, List.not_mem_nil, not_false_eq_true, decide_True,
    List.filter_true, List.map_map]
  have : ((fun x => (t.getAdjacent x).length) ∘ fun r : String × List Edge => r.1)
      = fun r => (t.getAdjacent r.1).length := rfl
  rw [this]
  omega

/-! ### Soundness alone, for every network -/

theorem relax_sound {t : Transit} {source u : String} {c : Int} {st : SearchState} {e : Edge}
    (hs : ∀ x ∈ st.frontier, Walk t source x.2 x.1) (hw : Walk t source u c)
    (he : e ∈ t.getAdjacent u) :
    ∀ x ∈ (relax u c st e).frontier, Walk t source x.2 x.1 := by
  have hpush : ∀ x ∈ (c + e.2, e.1) :: st.frontier, Walk t source x.2 x.1 := by
    intro x hx
    rcases List.mem_cons.mp hx with rfl | hx
    · exact Walk.snoc hw he
    · exact hs x hx
  unfold relax
  split
  · exact hs
  · split
    · split
      · exact hpush
      · exact hs
    · exact hpush

theorem foldl_relax_sound {t : Transit} {source u : String} {c : Int}
    (hw : Walk t source u c) (es : List Edge) :
    ∀ st : SearchState, (∀ e ∈ es, e ∈ t.getAdjacent u) →
      (∀ x ∈ st.frontier, Walk t source x.2 x.1) →
      ∀ x ∈ (es.foldl (relax u c) st).frontier, Walk t source x.2 x.1 := by
  induction es with
  | nil => intro st _ hs; exact hs
  | cons e es ih =>
    intro st hes hs
    rw [List.foldl_cons]
    exact ih _ (fun x hx => hes x (List.mem_cons_of_mem _ hx))
      (relax_sound hs hw (hes e (List.mem_cons_self _ _)))

/-- A cost returned by the scan is the weight of a route to the destination, and the scan fails
with nothing but `NoPathFound`. -/
theorem searchLoop_sound {t : Transit} {key : Int × String → Int} {source destination : String} :
    ∀ (fuel : Nat) (st : SearchState), (∀ x ∈ st.frontier, Walk t source x.2 x.1) →
      ∀ r, searchLoop t key destination fuel st = some r →
        (∀ c st2, r = .ok (c, st2) → Walk t source destination c) ∧
        (∀ err, r = .error err → err = .NoPathFound) := by
  intro fuel
  induction fuel with
  | zero => intro st _ r hr; simp [searchLoop] at hr
  | succ fuel ih =>
    intro st hs r hr
    unfold searchLoop at hr
    cases hmin : minEntry key st.frontier with
    | none =>
      rw [hmin] at hr
      simp only [Option.some.injEq] at hr
      subst hr
      constructor
      · intro c st2 hc
        cases hc
      · intro err herr
        simp only [Except.error.injEq] at herr
        exact herr.symm
    | some e =>
      rw [hmin] at hr
      simp only at hr
      have hmem := minEntry_mem key _ e hmin
      have hs2 : ∀ x ∈ st.frontier.erase e, Walk t source x.2 x.1 :=
        fun x hx => hs x (List.mem_of_mem_erase hx)
      by_cases hcl : e.2 ∈ st.closed
      · rw [if_pos hcl] at hr
        exact ih _ hs2 r hr
      · rw [if_neg hcl] at hr
        by_cases hd : e.2 = destination
        · rw [if_pos hd] at hr
          simp only [Option.some.injEq] at hr
          subst hr
          constructor
          · intro c st2 hc
            simp only [Except.ok.injEq, Prod.mk.injEq] at hc
            rw [← hc.1, ← hd]
            exact hs e hmem
          · intro err herr
            cases herr
        · rw [if_neg hd] at hr
          exact ih _ (foldl_relax_sound (hs e hmem) _ _ (fun _ h => h) hs2) r hr

theorem initial_sound (t : Transit) (source : String) :
    ∀ x ∈ (initialState source).frontier, Walk t source x.2 x.1 := by
  intro x hx
  simp only [initialState, List.mem_singleton] at hx
  subst hx
  exact Walk.nil

/-! ### The two searches -/

/-- With no route to the destination the scan ends, within its bound, in `NoPathFound`. -/
theorem findShortestPath_unreachable (t : Transit) (key : Int × String → Int)
    (sourceName destName source destination : String)
    (hs : t.getStopID sourceName = some source) (hd : t.getStopID destName = some destination)
    (hno : ∀ c, ¬ Walk t source destination c) :
    searchLoop t key destination (searchFuel t) (initialState source)
        = some (.error .NoPathFound) ∧
      findShortestPath t key sourceName destName = .error .NoPathFound := by
  obtain ⟨r, hr⟩ := searchLoop_isSome t key destination _ _ (measure_initial t source)
  obtain ⟨h1, h2⟩ := searchLoop_sound _ _ (initial_sound t source) r hr
  have hr2 : r = .error .NoPathFound := by
    cases r with
    | error err => rw [h2 err rfl]
    | ok p => exact absurd (h1 p.1 p.2 rfl) (hno p.1)
  subst hr2
  refine ⟨hr, ?_⟩
  unfold findShortestPath
  rw [hs, hd]
  simp only [hr]

/-- With a route to the destination and a consistent estimate behind the frontier priority, the
search returns the least weight of a route. -/
theorem findShortestPath_reachable (t : Transit) {h : String → Int} (hcons : Consistent t h)
    {key : Int × String → Int} (hkey : ∀ e, key e = e.1 + h e.2)
    (sourceName destName source destination : String)
    (hs : t.getStopID sourceName = some source) (hd : t.getStopID destName = some destination)
    (hreach : ∃ c, Walk t source destination c) :
    ∃ r, findShortestPath t key sourceName destName = .ok r ∧
      Walk t source destination r.total ∧ ∀ c, Walk t source destination c → r.total ≤ c := by
  obtain ⟨r, hr⟩ := searchLoop_isSome t key destination _ _ (measure_initial t source)
  obtain ⟨h1, h2⟩ := searchLoop_spec hcons hkey _ _ (initial_inv t source destination) r hr
  cases r with
  | error err =>
    obtain ⟨c, hc⟩ := hreach
    exact absurd hc ((h2 err rfl).2 c)
  | ok p =>
    obtain ⟨c, st2⟩ := p
    refine ⟨⟨walkBack st2.pred source st2.pred.length destination [], c⟩, ?_, h1 c st2 rfl⟩
    unfold findShortestPath
    rw [hs, hd]
    simp only [hr]

theorem findShortestPath_unknown_dest (t : Transit) (key : Int × String → Int)
    (sourceName destName : String) (hd : t.getStopID destName = none) :
    findShortestPath t key sourceName destName = .error .UnknownStop := by
  unfold findShortestPath
  rw [hd]
  cases t.getStopID sourceName <;> rfl

theorem findShortestPath_unknown_source (t : Transit) (key : Int × String → Int)
    (sourceName destName : String) (hs : t.getStopID sourceName = none) :
    findShortestPath t key sourceName destName = .error .UnknownStop := by
  unfold findShortestPath
  rw [hs]

theorem consistent_zero (t : Transit) (hnn : NonNegative t) : Consistent t (fun _ => 0) := by
  intro u e he
  have := hnn u e he
  show (0 : Int) ≤ e.2 + 0
  omega

theorem nonNegative_of_routes (t : Transit) (h : ∀ r ∈ t.routes, ∀ e ∈ r.2, 0 ≤ e.2) :
    NonNegative t := by
  intro u e he
  unfold Transit.getAdjacent at he
  cases hl : t.routes.lookup u with
  | none => rw [hl] at he; simp at he
  | some s =>
    rw [hl] at he
    obtain ⟨l1, l2, hsplit, -⟩ := List.lookup_eq_some_iff.mp hl
    exact h (u, s) (by rw [hsplit]; simp) e he

/-- C1: on a network with non-negative weights, for registered stops with the destination
reachable from the source, `shortest_path_dijkstra` returns a result whose total is the weight
of a route from source to destination and is no larger than the weight of any such route. -/
theorem dijkstra_total_is_minimum (t : Transit) (sourceName destName source destination : String)
    (hs : t.getStopID sourceName = some source) (hd : t.getStopID destName = some destination)
    (hnn : NonNegative t) (hreach : ∃ c, Walk t source destination c) :
    ∃ r, t.shortest_path_dijkstra sourceName destName = .ok r ∧
      Walk t source destination r.total ∧ ∀ c, Walk t source destination c → r.total ≤ c :=
  findShortestPath_reachable t (consistent_zero t hnn) (fun e => by simp) sourceName destName
    source destination hs hd hreach

theorem dijkstra_total_is_minimum_witness :
    abcNetwork.shortest_path_dijkstra "A" "C" = .ok ⟨["A", "B", "C"], 180⟩ ∧
      Walk abcNetwork "A" "C" 180 ∧ ∀ c, Walk abcNetwork "A" "C" c → 180 ≤ c := by
  have hw : Walk abcNetwork "A" "C" (0 + 60 + 120) :=
    Walk.snoc (Walk.snoc Walk.nil (by decide : (("B", 60) : Edge) ∈ abcNetwork.getAdjacent "A"))
      (by decide : (("C", 120) : Edge) ∈ abcNetwork.getAdjacent "B")
  obtain ⟨r, hr, hwr, hmin⟩ := dijkstra_total_is_minimum abcNetwork "A" "C" "A" "C" rfl rfl
    (nonNegative_of_routes abcNetwork (by decide)) ⟨_, hw⟩
  have hval : abcNetwork.shortest_path_dijkstra "A" "C" = .ok ⟨["A", "B", "C"], 180⟩ := by
    decide
  rw [hval] at hr
  simp only [Except.ok.injEq] at hr
  subst hr
  exact ⟨hval, hwr, hmin⟩

theorem a_star_eq_dijkstra (t : Transit) (sourceName destName : String) :
    t.shortest_path_a_star sourceName destName = t.shortest_path_dijkstra sourceName destName := by
  unfold Transit.shortest_path_a_star Transit.shortest_path_dijkstra aStarWith
  cases hd : t.getStopID destName with
  | none => simp only; rw [findShortestPath_unknown_dest t _ _ _ hd]
  | some destination =>
    simp only
    have : (fun e : Int × String => e.1 + zeroHeuristic destination e.2) = fun e => e.1 := by
      funext e
      simp [zeroHeuristic]
    rw [this]

theorem aStarWith_total_eq_dijkstra (heuristic : String → String → Int) (t : Transit)
    (hnn : NonNegative t) (hcons : ∀ destination, Consistent t (heuristic destination))
    (sourceName destName : String) :
    (aStarWith heuristic t sourceName destName).map (fun r => r.total)
      = (t.shortest_path_dijkstra sourceName destName).map (fun r => r.total) := by
  unfold Transit.shortest_path_dijkstra aStarWith
  cases hd : t.getStopID destName with
  | none => simp only; rw [findShortestPath_unknown_dest t _ _ _ hd]
  | some destination =>
    simp only
    cases hs : t.getStopID sourceName with
    | none =>
      rw [findShortestPath_unknown_source t _ _ _ hs, findShortestPath_unknown_source t _ _ _ hs]
    | some source =>
      by_cases hreach : ∃ c, Walk t source destination c
      · obtain ⟨r1, e1, w1, m1⟩ := @findShortestPath_reachable t _ (hcons destination)
          (fun e => e.1 + heuristic destination e.2) (fun _ => rfl)
          sourceName destName source destination hs hd hreach
        obtain ⟨r2, e2, w2, m2⟩ := @findShortestPath_reachable t _ (consistent_zero t hnn)
          (fun e => e.1) (fun e => by simp)
          sourceName destName source destination hs hd hreach
        rw [e1, e2]
        simp only [Except.map]
        have := m1 _ w2
        have := m2 _ w1
        congr 1
        omega
      · have hno : ∀ c, ¬ Walk t source destination c := fun c hc => hreach ⟨c, hc⟩
        rw [(findShortestPath_unreachable t _ sourceName destName source destination hs hd hno).2,
          (findShortestPath_unreachable t _ sourceName destName source destination hs hd hno).2]

/-- C2: for every network and every pair of names, `shortest_path_a_star` and
`shortest_path_dijkstra` return the same result, in particular the same total route time or
the same failure; and on a network with non-negative weights the search guided by any
consistent estimate returns the same total route time, or the same failure, as
`shortest_path_dijkstra`. -/
theorem a_star_total_eq_dijkstra_total (t : Transit) (sourceName destName : String) :
    (t.shortest_path_a_star sourceName destName).map (fun r => r.total)
        = (t.shortest_path_dijkstra sourceName destName).map (fun r => r.total) ∧
      t.shortest_path_a_star sourceName destName = t.shortest_path_dijkstra sourceName destName ∧
      ∀ heuristic : String → String → Int, NonNegative t →
        (∀ destination, Consistent t (heuristic destination)) →
        (aStarWith heuristic t sourceName destName).map (fun r => r.total)
          = (t.shortest_path_dijkstra sourceName destName).map (fun r => r.total) :=
  ⟨by rw [a_star_eq_dijkstra], a_star_eq_dijkstra t sourceName destName,
    fun heuristic hnn hcons => aStarWith_total_eq_dijkstra heuristic t hnn hcons _ _⟩

theorem abcHeuristic_consistent (destination : String) :
    Consistent abcNetwork (abcHeuristic destination) := by
  intro u e he
  unfold Transit.getAdjacent at he
  by_cases hA : u = "A"
  · subst hA
    have : e = ("B", 60) ∨ e = ("C", 300) := by
      simpa [abcNetwork, List.lookup] using he
    rcases this with rfl | rfl <;> simp [abcHeuristic]
  · by_cases hB : u = "B"
    · subst hB
      have : e = ("C", 120) := by
        simpa [abcNetwork, List.lookup] using he
      subst this
      simp [abcHeuristic]
    · have hA2 : (u == "A") = false := by simpa using hA
      have hB2 : (u == "B") = false := by simpa using hB
      simp [abcNetwork, List.lookup, hA2, hB2] at he

theorem a_star_total_eq_dijkstra_total_witness :
    (abcNetwork.shortest_path_a_star "A" "C").map (fun r => r.total) = .ok 180 ∧
      (aStarWith abcHeuristic abcNetwork "A" "C").map (fun r => r.total) = .ok 180 := by
  obtain ⟨h1, -, h3⟩ := a_star_total_eq_dijkstra_total abcNetwork "A" "C"
  have hval : (abcNetwork.shortest_path_dijkstra "A" "C").map (fun r => r.total) = .ok 180 := by
    decide
  exact ⟨h1.trans hval,
    (h3 abcHeuristic (nonNegative_of_routes abcNetwork (by decide))
      abcHeuristic_consistent).trans hval⟩

theorem walk_nonneg {t : Transit} (hnn : NonNegative t) {u v : String} {c : Int}
    (hw : Walk t u v c) : 0 ≤ c := by
  induction hw with
  | nil => exact le_refl _
  | snoc _ hedge ih =>
    have := hnn _ _ hedge
    simp only at this
    omega

/-- An estimate that never exceeds the remaining cost is not enough for a scan with a closed
set: on `detour` the estimate `steepHeuristic` closes B at cost 3 before the cheaper route
through A is seen, and the guided search returns 8 where uniform-cost search returns 7. -/
theorem admissible_estimate_may_lose :
    (∀ v c, Walk detour v "G" c → steepHeuristic "G" v ≤ c) ∧
    (aStarWith steepHeuristic detour "S" "G").map (fun r => r.total) = .ok 8 ∧
    (detour.shortest_path_dijkstra "S" "G").map (fun r => r.total) = .ok 7 := by
  have hnn : NonNegative detour := nonNegative_of_routes detour (by decide)
  refine ⟨fun v c hw => ?_, by decide, by decide⟩
  by_cases hv : v = "A"
  · subst hv
    obtain ⟨r, hr, -, hmin⟩ := @findShortestPath_reachable detour _ (consistent_zero detour hnn)
      (fun e => e.1) (fun e => by simp) "A" "G" "A" "G" rfl rfl ⟨c, hw⟩
    have hval : findShortestPath detour (fun e => e.1) "A" "G" = .ok ⟨["A", "B", "G"], 6⟩ := by
      decide
    rw [hval] at hr
    simp only [Except.ok.injEq] at hr
    subst hr
    have := hmin c hw
    simp only [steepHeuristic, if_true]
    simp only at this
    omega
  · simp only [steepHeuristic, hv, if_false]
    exact walk_nonneg hnn hw

/-! ## No route between the two stops -/

/-- When both searches of the core return, the pass of `main` against the core is the pass
`step` of any implementation that returns the same two tuples. -/
theorem searchPass_eq_step (t : Transit) (pack : PathResult → String × ℚ × ℤ)
    (transit : TransitOps) (m : Menu) (ra rd : PathResult) (hpc : m.pc = .search)
    (ha : t.shortest_path_a_star m.stopA_name m.stopB_name = .ok ra)
    (hd : t.shortest_path_dijkstra m.stopA_name m.stopB_name = .ok rd)
    (ha2 : transit.shortest_path_a_star m.stopA_name m.stopB_name = pack ra)
    (hd2 : transit.shortest_path_dijkstra m.stopA_name m.stopB_name = pack rd) :
    searchPass t pack m = (step transit m, none) := by
  rw [step_search transit m hpc, ha2, hd2]
  unfold searchPass
  rw [ha, hd]
  rfl

/-- On the network of the concrete scenario the same pass prints the report of both results. -/
theorem searchPass_abc :
    (searchPass abcNetwork samplePack (atSearch "A" "C" [])).2 = none ∧
    (searchPass abcNetwork samplePack (atSearch "A" "C" [])).1.pc = .askExit ∧
    (searchPass abcNetwork samplePack (atSearch "A" "C" [])).1.cout
      = report ("A -> B -> C", 180, 0) ("A -> B -> C", 180, 0) := by
  have ha : abcNetwork.shortest_path_a_star "A" "C" = .ok ⟨["A", "B", "C"], 180⟩ := by decide
  have hd : abcNetwork.shortest_path_dijkstra "A" "C" = .ok ⟨["A", "B", "C"], 180⟩ := by decide
  have hp : samplePack ⟨["A", "B", "C"], 180⟩ = ("A -> B -> C", 180, 0) := by
    simp [samplePack, String.intercalate]
    decide
  have : searchPass abcNetwork samplePack (atSearch "A" "C" [])
      = ({ (atSearch "A" "C" []) with
              pc := .askExit, calls := roundCalls "A" "C",
              cout := report ("A -> B -> C", 180, 0) ("A -> B -> C", 180, 0) }, none) := by
    unfold searchPass
    simp only [atSearch, ha, hd, callSearch, hp, List.nil_append]
  rw [this]
  exact ⟨rfl, rfl, rfl⟩


end SubwayPathfinder
